import Mathlib

/-!
Verification development for the ECB publications scraper pipeline
(`ecb_scrapper.py` and `pdf_downloader.py`).

Python strings are modelled as Lean `String`s, with the character-level
algorithms written over `List Char` (`String.data`).  Python's `re.search`
calls are embedded as explicit left-to-right scanners specialised to the two
fixed patterns that appear in the source.  The filesystem (the downloads
directory) is modelled as the list of file names it contains.  Network and
browser interactions are modelled as oracle functions supplied as arguments.
-/

/-! ### Python string primitives -/

/-- Character class of Python's regex `\d`. -/
def isDigitCh (c : Char) : Bool := c.isDigit

/-- Character class of Python's regex `\w` (ASCII fragment: letters, digits
and underscore; the month names and all inputs of interest are ASCII). -/
def isWordCh (c : Char) : Bool := c.isAlphanum || c == '_'

/-- Character class of Python's regex `\s` and of `str.strip` (ASCII
fragment: space, tab, newline, carriage return). -/
def isSpaceCh (c : Char) : Bool := c.isWhitespace

/-- Model of Python `str.strip()`: drop whitespace from both ends. -/
def pyStrip (s : List Char) : List Char :=
  ((s.dropWhile isSpaceCh).reverse.dropWhile isSpaceCh).reverse

/-- Contiguous-substring search over character lists. -/
def isInfixCh (needle : List Char) : List Char → Bool
  | [] => needle.isEmpty
  | c :: rest => needle.isPrefixOf (c :: rest) || isInfixCh needle rest

/-- Model of Python's substring test `needle in hay`. -/
def containsSub (hay needle : String) : Bool :=
  isInfixCh needle.data hay.data

/-- Model of Python `str.lower()` (ASCII fragment). -/
def toLowerPy (s : String) : String := (s.data.map Char.toLower).asString

/-- Helper prepending a character to the first field of a split result. -/
def consHead (c : Char) : List (List Char) → List (List Char)
  | [] => [[c]]
  | f :: fs => (c :: f) :: fs

/-- Model of Python `line.split(' | ', ms)`: split on at most `ms`
occurrences of the three-character separator, scanning left to right and
consuming occurrences greedily without overlap.  The tail beyond the last
permitted split is returned whole as the final field. -/
def splitPipeMax (ms : Nat) : List Char → List (List Char)
  | [] => [[]]
  | [c] => [[c]]
  | [c1, c2] => [[c1, c2]]
  | c1 :: c2 :: c3 :: rest =>
    if ms ≠ 0 ∧ c1 = ' ' ∧ c2 = '|' ∧ c3 = ' ' then
      [] :: splitPipeMax (ms - 1) rest
    else
      consHead c1 (splitPipeMax ms (c2 :: c3 :: rest))

/-- Number of separator occurrences the greedy left-to-right scan of
`splitPipeMax` would consume when no split bound is imposed. -/
def countSeps : List Char → Nat
  | c1 :: c2 :: c3 :: rest =>
    if c1 = ' ' ∧ c2 = '|' ∧ c3 = ' ' then countSeps rest + 1
    else countSeps (c2 :: c3 :: rest)
  | _ => 0

/-- Join fields back with the `" | "` separator (inverse of the splitter). -/
def joinSeps : List (List Char) → List Char
  | [] => []
  | [f] => f
  | f :: fs => f ++ (' ' :: '|' :: ' ' :: joinSeps fs)

/-- Split a file's content into lines at newline characters.  This models
Python's iteration over the lines of a text file; the reader strips every
line, so the representational differences (trailing newline, empty file)
are observationally irrelevant. -/
def splitLinesCh : List Char → List (List Char)
  | [] => [[]]
  | c :: rest =>
    if c = '\n' then [] :: splitLinesCh rest
    else consHead c (splitLinesCh rest)

/-! ### `ECBScraper.parse_date` (`ecb_scrapper.py` lines 31-52)

The two `re.search` calls are embedded as leftmost-match scanners.

Pattern 1 is `(\d{1,2})\s+(\w+)\s+(\d{4})`.  At a given start position the
regex engine first tries a two-digit day and falls back to a single digit;
after the day, the `\s+` and `\w+` groups are matched greedily — giving
back characters can never help, because the classes `\s` and `\w` are
disjoint and `\d ⊆ \w`, so the greedy munch below (with explicit
backtracking over the day length) is exactly the regex semantics.

Pattern 2 is `(\d{4})-(\d{2})-(\d{2})`, a fixed-width pattern needing no
backtracking. -/

/-- Attempt the suffix of pattern 1 after the day digits: `\s+(\w+)\s+(\d{4})`.
Returns the month word and the four year digits. -/
def matchDMYTail (rest : List Char) : Option (List Char × List Char) :=
  let ws1 := rest.takeWhile isSpaceCh
  if ws1.isEmpty then none
  else
    let r1 := rest.dropWhile isSpaceCh
    let word := r1.takeWhile isWordCh
    if word.isEmpty then none
    else
      let r2 := r1.dropWhile isWordCh
      let ws2 := r2.takeWhile isSpaceCh
      if ws2.isEmpty then none
      else
        let r3 := r2.dropWhile isSpaceCh
        let year := r3.take 4
        if year.length = 4 ∧ year.all isDigitCh then some (word, year)
        else none

/-- Attempt pattern 1 anchored at the head of `s`: greedy two-digit day
first, then the one-digit fallback.  Returns `(day, month, year)`. -/
def matchDMYAt (s : List Char) : Option (List Char × List Char × List Char) :=
  match s with
  | c1 :: c2 :: rest =>
    if isDigitCh c1 then
      if isDigitCh c2 then
        match matchDMYTail rest with
        | some (m, y) => some ([c1, c2], m, y)
        | none =>
          match matchDMYTail (c2 :: rest) with
          | some (m, y) => some ([c1], m, y)
          | none => none
      else
        match matchDMYTail (c2 :: rest) with
        | some (m, y) => some ([c1], m, y)
        | none => none
    else none
  | _ => none

/-- Leftmost-match scan of an anchored matcher over all start positions,
the search strategy of `re.search`. -/
def scanFirst (f : List Char → Option β) : List Char → Option β
  | [] => none
  | c :: rest =>
    match f (c :: rest) with
    | some r => some r
    | none => scanFirst f rest

/-- Leftmost search for pattern 1, as `re.search` does. -/
def searchDMY : List Char → Option (List Char × List Char × List Char) :=
  scanFirst matchDMYAt

/-- Attempt pattern 2 (`(\d{4})-(\d{2})-(\d{2})`) anchored at the head;
returns the ten matched characters. -/
def matchISOAt : List Char → Option (List Char)
  | y1 :: y2 :: y3 :: y4 :: h1 :: m1 :: m2 :: h2 :: d1 :: d2 :: _ =>
    if isDigitCh y1 ∧ isDigitCh y2 ∧ isDigitCh y3 ∧ isDigitCh y4 ∧ h1 = '-' ∧
       isDigitCh m1 ∧ isDigitCh m2 ∧ h2 = '-' ∧ isDigitCh d1 ∧ isDigitCh d2 then
      some [y1, y2, y3, y4, h1, m1, m2, h2, d1, d2]
    else none
  | _ => none

/-- Leftmost search for pattern 2. -/
def searchISO : List Char → Option (List Char) :=
  scanFirst matchISOAt

/-- The fixed twelve-entry month table `self.month_names`. -/
def month_names : List (String × String) :=
  [("January", "01"), ("February", "02"), ("March", "03"), ("April", "04"),
   ("May", "05"), ("June", "06"), ("July", "07"), ("August", "08"),
   ("September", "09"), ("October", "10"), ("November", "11"), ("December", "12")]

/-- Dictionary lookup `self.month_names.get(month, None)`. -/
def monthLookup (m : String) : Option String :=
  (month_names.find? (fun p => p.1 == m)).map (·.2)

/-- Model of Python `day.zfill(2)` for the captured day (one or two digits). -/
def zfill2 (day : List Char) : String :=
  if day.length < 2 then "0" ++ day.asString else day.asString

/-- Shared tail of `parse_date`: the pattern-2 search over the stripped
text, returning the matched substring verbatim, else `None`. -/
def parseDateISOPart (s : List Char) : Option String :=
  (searchISO s).map List.asString

/-- Model of `ECBScraper.parse_date`.  Empty input returns `None`; the text
is stripped; the first `D Month YYYY` regex match is formatted through the
month table when its month name is present there; otherwise the function
falls through to the ISO-substring search; failure of both yields `None`. -/
def parse_date (date_text : String) : Option String :=
  if date_text = "" then none
  else
    let s := pyStrip date_text.data
    match searchDMY s with
    | some (day, m, year) =>
      match monthLookup m.asString with
      | some mn => some (year.asString ++ "-" ++ mn ++ "-" ++ zfill2 day)
      | none => parseDateISOPart s
    | none => parseDateISOPart s

example : parse_date "15 March 2024" = some "2024-03-15" := by decide
example : parse_date "2024-03-15" = some "2024-03-15" := by decide
example : parse_date "not a date" = none := by decide
example : parse_date "5 May 1999 text" = some "1999-05-05" := by decide
example : parse_date "1 Foo 2000 15 March 2024" = none := by decide

/-! ### `ECBScraper.extract_publications_from_html` (`ecb_scrapper.py` lines 54-127)

The markup snapshot is modelled by the structure BeautifulSoup exposes to
this function: an optional `div.dl-wrapper`, its `dl` elements in document
order, each carrying its `dt` heading texts (already stripped, as
`get_text(strip=True)` returns them) and its `dd` blocks, each a list of
href-bearing anchors in document order.  Whether an anchor sits inside a
`div.accordion` ancestor is a per-anchor flag. -/

/-- An `a` element found by `dd.find_all('a', href=True)`. -/
structure Anchor where
  text : String
  href : String
  inAccordion : Bool
deriving DecidableEq, Repr

/-- A `dl` element inside the `dl-wrapper`, with its `dt` texts and the
anchor lists of its `dd` blocks, both in document order. -/
structure DlElem where
  dts : List String
  dds : List (List Anchor)
deriving DecidableEq, Repr

/-- A markup snapshot as seen by the extraction routine: `none` when no
`div.dl-wrapper` is present. -/
structure HtmlModel where
  dlWrapper : Option (List DlElem)
deriving DecidableEq, Repr

/-- A publication record as built by the extraction routine. -/
structure Pub where
  date : String
  title : String
  url : String
  original_date_text : String
deriving DecidableEq, Repr

/-- URL absolutisation: prefix the fixed origin when the href starts with a
slash. -/
def absolutize (url : String) : String :=
  if url.data.head? = some '/' then "https://www.ecb.europa.eu" ++ url else url

/-- Replacement of every pipe character in the title, modelling
`title.replace('|', '-')` (for a single-character pattern Python's
`str.replace` is exactly a per-character map). -/
def replacePipes (s : String) : String :=
  (s.data.map (fun c => if c = '|' then '-' else c)).asString

/-- Per-link body of the innermost extraction loop: skip anchors inside an
accordion region, absolutise the href, and emit a record only when title
and url are non-empty and the heading date parses. -/
def linkPub (date_text : String) (a : Anchor) : Option Pub :=
  let title := a.text
  if a.inAccordion then none
  else
    let url := absolutize a.href
    if title ≠ "" ∧ url ≠ "" then
      match parse_date date_text with
      | some d =>
        some { date := d, title := replacePipes title, url := url,
               original_date_text := date_text }
      | none => none
    else none

/-- Innermost loop over the anchors of one `dd`, with the eager cap check
(`if len(publications) >= self.max_publications: break`) at the top of
every iteration. -/
def extractLinksLoop (maxP : Nat) (date_text : String) :
    List Anchor → List Pub → List Pub
  | [], pubs => pubs
  | a :: as, pubs =>
    if maxP ≤ pubs.length then pubs
    else
      match linkPub date_text a with
      | some p => extractLinksLoop maxP date_text as (pubs ++ [p])
      | none => extractLinksLoop maxP date_text as pubs

/-- Middle loop over the `dt`/`dd` pairs of one `dl`, with its own eager
cap check.  The source iterates `dt_elements` by index and processes the
`dd` of equal index when it exists; `dt`s beyond the `dd` count contribute
nothing, which is exactly `List.zip`. -/
def extractDtsLoop (maxP : Nat) :
    List (String × List Anchor) → List Pub → List Pub
  | [], pubs => pubs
  | (dt, dd) :: rest, pubs =>
    if maxP ≤ pubs.length then pubs
    else extractDtsLoop maxP rest (extractLinksLoop maxP dt dd pubs)

/-- Outer loop over the `dl` elements, again with the eager cap check. -/
def extractDlsLoop (maxP : Nat) : List DlElem → List Pub → List Pub
  | [], pubs => pubs
  | dl :: rest, pubs =>
    if maxP ≤ pubs.length then pubs
    else extractDlsLoop maxP rest (extractDtsLoop maxP (dl.dts.zip dl.dds) pubs)

/-- Model of `ECBScraper.extract_publications_from_html` with
`self.max_publications = maxP`.  A missing `dl-wrapper` yields the empty
list. -/
def extract_publications_from_html (maxP : Nat) (html : HtmlModel) : List Pub :=
  match html.dlWrapper with
  | none => []
  | some dls => extractDlsLoop maxP dls []

/-- The candidate links of a snapshot, in document order and without any
cap: href-bearing anchors inside the `dl-wrapper`, paired with a heading,
not nested in an accordion region, with non-empty title and url and a
parseable heading date. -/
def candidatePubs (html : HtmlModel) : List Pub :=
  match html.dlWrapper with
  | none => []
  | some dls =>
    dls.foldr (fun dl acc =>
      ((dl.dts.zip dl.dds).foldr (fun p acc2 =>
        (p.2.filterMap (linkPub p.1)) ++ acc2) []) ++ acc) []

/-! ### Dedup and ranking step of `ECBScraper.run` (`ecb_scrapper.py` lines 294-306) -/

/-- Lexicographic code-point comparison of character lists, the order
Python uses to compare the ISO date strings. -/
def lexLe : List Char → List Char → Bool
  | [], _ => true
  | _ :: _, [] => false
  | a :: as, b :: bs =>
    if a < b then true else if b < a then false else lexLe as bs

/-- String comparison `a <= b` as Python performs it on the date keys. -/
def strLe (a b : String) : Bool := lexLe a.data b.data

/-- First-occurrence deduplication by `url`, mirroring the `seen_urls`
loop; the membership test of the Python `set` is modelled by list
membership. -/
def dedupPubs : List Pub → List String → List Pub
  | [], _ => []
  | p :: ps, seen =>
    if p.url ∈ seen then dedupPubs ps seen
    else p :: dedupPubs ps (p.url :: seen)

/-- Stable descending insertion by date: a record is placed before the
first record whose date is less than or equal to its own, so records with
equal dates keep their relative order. -/
def insertPubDesc (p : Pub) : List Pub → List Pub
  | [] => [p]
  | q :: qs => if strLe q.date p.date then p :: q :: qs else q :: insertPubDesc p qs

/-- Model of `unique_pubs.sort(key=lambda x: x['date'], reverse=True)`.
Python's sort is a stable sort by the key with reversed comparison; a
stable sort is uniquely determined by the key ordering, and the insertion
sort below is stable (proved in the C2 theorem), so it computes the same
list as Timsort. -/
def sortPubsDesc : List Pub → List Pub
  | [] => []
  | p :: ps => insertPubDesc p (sortPubsDesc ps)

/-- The dedup-and-rank step of `ECBScraper.run`. -/
def dedupAndRank (pubs : List Pub) : List Pub :=
  sortPubsDesc (dedupPubs pubs [])

/-! ### `ECBScraper.save_to_file` (`ecb_scrapper.py` lines 318-347) and
`ECBPDFDownloader.read_publications_file` (`pdf_downloader.py` lines 330-349) -/

/-- Model of `'\n'.join(lines)`. -/
def joinNl : List String → String
  | [] => ""
  | [s] => s
  | s :: rest => s ++ "\n" ++ joinNl rest

/-- Content written by `save_to_file`: one `date | title | url` line per
record, joined with newlines (file naming and the filesystem write are
outside the data path being verified). -/
def save_to_file_content (pubs : List Pub) : String :=
  joinNl (pubs.map (fun p => p.date ++ " | " ++ p.title ++ " | " ++ p.url))

/-- Per-line body of `read_publications_file`: strip the line, require it
non-empty and containing the separator, split on at most two separators and
accept exactly the three-field outcome. -/
def parseLine (line : List Char) : Option (String × String × String) :=
  let l := pyStrip line
  if l ≠ [] ∧ isInfixCh (' ' :: '|' :: ' ' :: []) l then
    match splitPipeMax 2 l with
    | [d, t, u] => some (d.asString, t.asString, u.asString)
    | _ => none
  else none

/-- Model of `ECBPDFDownloader.read_publications_file` on the file's
content. -/
def read_publications_file (content : String) : List (String × String × String) :=
  (splitLinesCh content.data).filterMap parseLine

example : read_publications_file "2024-01-01 | T | http://x\nbad line\n\na | b" =
    [("2024-01-01", "T", "http://x")] := by decide
example : read_publications_file "a | b | c | d" = [("a", "b", "c | d")] := by decide

/-! ### Decimal numerals

`check_duplicate_filename` renders the probe counter with an f-string,
modelled by `Nat.repr`.  The termination and first-free-name arguments
need injectivity of the decimal rendering, proved here through a
round-trip evaluation of the digits. -/

/-- Decimal value of a digit character. -/
def digitVal (c : Char) : Nat := c.toNat - 48

/-- Decimal value of a character list read most-significant first. -/
def decimalVal (l : List Char) : Nat :=
  l.foldl (fun a c => 10 * a + digitVal c) 0

theorem toDigitsCore_append (fuel : Nat) :
    ∀ (n : Nat) (ds : List Char),
      Nat.toDigitsCore 10 fuel n ds = Nat.toDigitsCore 10 fuel n [] ++ ds := by
  induction fuel with
  | zero => intro n ds; simp [Nat.toDigitsCore]
  | succ f ih =>
    intro n ds
    simp only [Nat.toDigitsCore]
    by_cases h : n / 10 = 0
    · simp [h]
    · simp only [h, if_false]
      rw [ih (n / 10) (Nat.digitChar (n % 10) :: ds),
          ih (n / 10) [Nat.digitChar (n % 10)]]
      simp

theorem digitVal_digitChar {n : Nat} (h : n < 10) :
    digitVal (Nat.digitChar n) = n := by
  interval_cases n <;> rfl

theorem decimalVal_toDigitsCore (fuel : Nat) :
    ∀ n : Nat, n < fuel → decimalVal (Nat.toDigitsCore 10 fuel n []) = n := by
  induction fuel with
  | zero => intro n h; omega
  | succ f ih =>
    intro n hn
    simp only [Nat.toDigitsCore]
    by_cases h : n / 10 = 0
    · have h10 : n < 10 := by omega
      have : n % 10 = n := Nat.mod_eq_of_lt h10
      simp [h, decimalVal, this, digitVal_digitChar h10]
    · simp only [h, if_false]
      rw [toDigitsCore_append]
      have hlt : n / 10 < f := by
        have h1 : n / 10 < n := Nat.div_lt_self (by omega) (by omega)
        omega
      have hmod : n % 10 < 10 := Nat.mod_lt _ (by omega)
      simp only [decimalVal, List.foldl_append, List.foldl_cons, List.foldl_nil]
      have := ih (n / 10) hlt
      simp only [decimalVal] at this
      rw [this, digitVal_digitChar hmod]
      omega

theorem Nat.repr_injective : Function.Injective Nat.repr := by
  intro m n h
  have hdata : Nat.toDigits 10 m = Nat.toDigits 10 n := congrArg String.data h
  have hm := decimalVal_toDigitsCore (m + 1) m (Nat.lt_succ_self m)
  have hn := decimalVal_toDigitsCore (n + 1) n (Nat.lt_succ_self n)
  simp only [Nat.toDigits] at hdata
  rw [← hm, ← hn, hdata]

/-! ### `ECBPDFDownloader.sanitize_filename` and `generate_filename`
(`pdf_downloader.py` lines 42-69) -/

/-- Character class of the regex `[;:\'"{}^%~#|<>\\[\]\s/]`. -/
def isSpecialCh (c : Char) : Bool :=
  c = ';' || c = ':' || c = '\'' || c = '"' || c = '{' || c = '}' || c = '^' ||
  c = '%' || c = '~' || c = '#' || c = '|' || c = '<' || c = '>' || c = '\\' ||
  c = '[' || c = ']' || c = '/' || c.isWhitespace

/-- Collapse runs of consecutive underscores to a single underscore,
modelling `re.sub(r'_+', '_', ...)`. -/
def collapseU : List Char → List Char
  | [] => []
  | [c] => [c]
  | c1 :: c2 :: rest =>
    if c1 = '_' ∧ c2 = '_' then collapseU (c2 :: rest)
    else c1 :: collapseU (c2 :: rest)

/-- Model of `str.strip('_')`. -/
def stripU (l : List Char) : List Char :=
  ((l.dropWhile (· == '_')).reverse.dropWhile (· == '_')).reverse

/-- Model of `str.rstrip('_')`. -/
def rstripU (l : List Char) : List Char :=
  (l.reverse.dropWhile (· == '_')).reverse

/-- Model of `ECBPDFDownloader.sanitize_filename` (default `max_length`). -/
def sanitize_filename (title : String) (max_length : Nat := 200) : String :=
  let clean := title.data.map (fun c => if isSpecialCh c then '_' else c)
  let clean := collapseU clean
  let clean := stripU clean
  if max_length < clean.length then (rstripU (clean.take max_length)).asString
  else clean.asString

/-- Model of `ECBPDFDownloader.generate_filename`. -/
def generate_filename (date title : String) (counter : Nat) : String :=
  let clean_title := sanitize_filename title
  if counter > 0 then date ++ "_" ++ clean_title ++ "_At" ++ Nat.repr counter
  else date ++ "_" ++ clean_title

/-! ### `ECBPDFDownloader.check_duplicate_filename` (`pdf_downloader.py` lines 71-89)

The downloads directory is modelled as the list of file names it
contains. -/

/-- Model of `base_filename.split('_', 1)`: the part before the first
underscore and, when an underscore exists, the remainder after it. -/
def splitUnderscoreOnce : List Char → List Char × Option (List Char)
  | [] => ([], none)
  | '_' :: rest => ([], some rest)
  | c :: rest =>
    let r := splitUnderscoreOnce rest
    (c :: r.1, r.2)

/-- Model of `re.sub(r'_At\d+$', '', title_part)`.  The pattern anchors at
the end with a non-empty digit run after `_At`, so at most one match
exists: the maximal trailing digit run, provided the text before it ends
in `_At` (any shorter digit run would have to be preceded by the letter
`t`, which is not a digit, hence cannot start right after `_At`). -/
def stripAtSuffix (t : List Char) : List Char :=
  let r := t.reverse
  let digs := r.takeWhile isDigitCh
  let rest := r.dropWhile isDigitCh
  if digs ≠ [] ∧ ['t', 'A', '_'].isPrefixOf rest then (rest.drop 3).reverse
  else t

/-- The probe name built inside the `while` loop for a given counter.  The
source recomputes the split of `base_filename` and the `_At` stripping on
every iteration; both act on the unchanged `base_filename`, so they are
hoisted into this function of the counter. -/
def candidateName (base_filename ext : String) (counter : Nat) : String :=
  match splitUnderscoreOnce base_filename.data with
  | (date_part, some title_part) =>
    date_part.asString ++ "_" ++ (stripAtSuffix title_part).asString ++ "_At" ++
      Nat.repr counter ++ "." ++ ext
  | (_, none) => base_filename ++ "_At" ++ Nat.repr counter ++ "." ++ ext

/-- The probing loop, with fuel.  `check_duplicate_filename` supplies fuel
`fs.length + 1`, which is proved sufficient (the candidate names are
pairwise distinct, so at most `fs.length` probes can collide). -/
def cdfProbe (fs : List String) (cand : Nat → String) : Nat → Nat → String
  | 0, c => cand c
  | fuel + 1, c => if cand c ∈ fs then cdfProbe fs cand fuel (c + 1) else cand c

/-- Model of `ECBPDFDownloader.check_duplicate_filename` over the list of
existing file names. -/
def check_duplicate_filename (fs : List String) (base_filename ext : String) : String :=
  let f0 := base_filename ++ "." ++ ext
  if f0 ∈ fs then cdfProbe fs (candidateName base_filename ext) (fs.length + 1) 1
  else f0

example :
    check_duplicate_filename ["2024-01-01_Title.pdf", "2024-01-01_Title_At1.pdf"]
      "2024-01-01_Title" "pdf" = "2024-01-01_Title_At2.pdf" := by decide
example : check_duplicate_filename [] "2024-01-01_Title" "pdf" = "2024-01-01_Title.pdf" := by
  decide
example : check_duplicate_filename ["x_At3.json"] "x_At3" "json" = "x_At3_At1.json" := by
  decide
example : check_duplicate_filename ["2024_T_At5.pdf"] "2024_T_At5" "pdf" = "2024_T_At1.pdf" := by
  decide
example : check_duplicate_filename ["nounderscore.pdf"] "nounderscore" "pdf" =
    "nounderscore_At1.pdf" := by decide

/-! ### `ECBPDFDownloader.determine_category` (`pdf_downloader.py` lines 91-113) -/

/-- Model of `ECBPDFDownloader.determine_category`: the ordered
`if`/`elif` cascade over the lowered title and url. -/
def determine_category (title url : String) : String :=
  let title_lower := toLowerPy title
  let url_lower := toLowerPy url
  if containsSub title_lower "monetary policy" || containsSub url_lower "/mopo/" then
    "Monetary policy statement"
  else if containsSub title_lower "economic bulletin" then "Economic Bulletin"
  else if containsSub title_lower "financial stability" then "Financial Stability Review"
  else if containsSub url_lower "speech" || containsSub url_lower "key" then "Speech"
  else if containsSub url_lower "interview" then "Interview"
  else if containsSub url_lower "blog" then "Blog"
  else if containsSub title_lower "statistics" || containsSub url_lower "/stats/" then
    "Statistical release"
  else if containsSub url_lower "press" || containsSub url_lower "/pr/" then "Press release"
  else "Report"

/-- The same cascade as an explicit ordered rule table over the already
lowered `(title, url)` pair, for stating first-match-wins. -/
def categoryRules : List ((String → String → Bool) × String) :=
  [(fun t u => containsSub t "monetary policy" || containsSub u "/mopo/",
    "Monetary policy statement"),
   (fun t _ => containsSub t "economic bulletin", "Economic Bulletin"),
   (fun t _ => containsSub t "financial stability", "Financial Stability Review"),
   (fun _ u => containsSub u "speech" || containsSub u "key", "Speech"),
   (fun _ u => containsSub u "interview", "Interview"),
   (fun _ u => containsSub u "blog", "Blog"),
   (fun t u => containsSub t "statistics" || containsSub u "/stats/",
    "Statistical release"),
   (fun _ u => containsSub u "press" || containsSub u "/pr/", "Press release")]

/-- First-match-wins evaluation of an ordered rule table with a default. -/
def evalRules (dflt : String) (t u : String) :
    List ((String → String → Bool) × String) → String
  | [] => dflt
  | (p, c) :: rs => if p t u then c else evalRules dflt t u rs

/-! ### `ECBPDFDownloader.generate_metadata` (`pdf_downloader.py` lines 115-146)

Current-time instants are passed in as the `now` parameter (an opaque
timestamp string). -/

/-- Gregorian leap-year test, as `datetime` validates dates. -/
def isLeapYear (y : Nat) : Bool :=
  (y % 4 == 0 && y % 100 != 0) || y % 400 == 0

/-- Days in a month of the proleptic Gregorian calendar. -/
def daysInMonth (y m : Nat) : Nat :=
  if m = 2 then (if isLeapYear y then 29 else 28)
  else if m = 4 ∨ m = 6 ∨ m = 9 ∨ m = 11 then 30
  else 31

/-- Model of `datetime.strptime(date, "%Y-%m-%d")` together with the
constructor's calendar validation: exactly four year digits, one or two
month digits in 1..12, one or two day digits valid for the month, nothing
left over; any violation raises, which the caller turns into the `now`
fallback. -/
def strptimeYmd (s : List Char) : Option (Nat × Nat × Nat) :=
  let y := s.take 4
  let rest := s.drop 4
  if y.length = 4 ∧ y.all isDigitCh then
    match rest with
    | '-' :: r1 =>
      let mRun := r1.takeWhile isDigitCh
      let r2 := r1.dropWhile isDigitCh
      if 1 ≤ mRun.length ∧ mRun.length ≤ 2 then
        match r2 with
        | '-' :: r3 =>
          let dRun := r3.takeWhile isDigitCh
          let r4 := r3.dropWhile isDigitCh
          if 1 ≤ dRun.length ∧ dRun.length ≤ 2 ∧ r4 = [] then
            let yv := decimalVal y
            let mv := decimalVal mRun
            let dv := decimalVal dRun
            if 1 ≤ yv ∧ 1 ≤ mv ∧ mv ≤ 12 ∧ 1 ≤ dv ∧ dv ≤ daysInMonth yv mv then
              some (yv, mv, dv)
            else none
          else none
        | _ => none
      else none
    | _ => none
  else none

/-- Zero-padding to two digits. -/
def pad2 (n : Nat) : String := if n < 10 then "0" ++ Nat.repr n else Nat.repr n

/-- Zero-padding to four digits. -/
def pad4 (n : Nat) : String :=
  if n < 10 then "000" ++ Nat.repr n
  else if n < 100 then "00" ++ Nat.repr n
  else if n < 1000 then "0" ++ Nat.repr n
  else Nat.repr n

/-- The metadata dictionary built for each successful retrieval; the
`custom_attributes` sub-dictionary is flattened into the `category` and
`language` fields and the always-empty `raw_attributes` map is omitted. -/
structure Metadata where
  dataset_name : String
  dataset_code : String
  source_uri : String
  created_at : String
  creator : String
  publisher : String
  publication_date : String
  publication_title : String
  ingest_source : String
  category : String
  language : String
deriving DecidableEq, Repr

/-- Model of `ECBPDFDownloader.generate_metadata`.  A parseable `date`
yields the 09:00 UTC instant of that day; otherwise the current instant is
used.  The `filename` argument is accepted and unused, as in the source. -/
def generate_metadata (date title url filename creator : String) (now : String) :
    Metadata :=
  { dataset_name := "Central Bank EUR"
    dataset_code := "CB_EUR_ECB"
    source_uri := url
    created_at := now
    creator := creator
    publisher := "European Central Bank"
    publication_date :=
      match strptimeYmd date.data with
      | some (yv, mv, dv) =>
        pad4 yv ++ "-" ++ pad2 mv ++ "-" ++ pad2 dv ++ "T09:00:00+00:00"
      | none => now
    publication_title := title
    ingest_source := "CB_EUR_ECB_LDR"
    category := determine_category title url
    language := "English" }

/-! ### The tenacity retry wrapper

Every fallible external operation in the source is decorated with
`@retry(stop=stop_after_attempt(N), wait=wait_exponential(...), retry=retry_if_exception_type(...))`.
The wrapper is embedded as `retryRun`: the operation is an oracle indexed
by the attempt number, failures carry an exception value, and the trace
records the attempts made and the sleeps performed between them. -/

/-- Exceptions of the aiohttp download path.  `clientError` covers
`aiohttp.ClientError` (including the `ClientResponseError` raised for a
non-200 status), `serverTimeout` covers `aiohttp.ServerTimeoutError`,
`osError` covers `OSError`; `otherExn` is any other exception, which the
retry predicate of `download_pdf_with_aiohttp` does not accept. -/
inductive AioExn where
  | clientError
  | serverTimeout
  | osError
  | otherExn
deriving DecidableEq, Repr

/-- The predicate `retry_if_exception_type((aiohttp.ClientError,
aiohttp.ServerTimeoutError, OSError))`. -/
def aioRetryable : AioExn → Bool
  | .otherExn => false
  | _ => true

/-- Trace of one retry-wrapped call: the final outcome, the number of the
last attempt made, and the sleeps performed between attempts. -/
structure RetryResult (ε α : Type) where
  result : Except ε α
  attempts : Nat
  sleeps : List Nat
deriving Repr

/-- Model of tenacity `wait_exponential(multiplier, min, max)` with the
default `exp_base = 2`: the sleep after failed attempt `k` is
`max(max(0, min), min(multiplier * 2^(k-1), max))`; over `Nat` the inner
`max(0, ·)` is the identity. -/
def waitExponential (multiplier mn mx : Nat) (attempt : Nat) : Nat :=
  max mn (min (multiplier * 2 ^ (attempt - 1)) mx)

/-- Core retry loop: run attempt `k`; on a failure the predicate accepts,
sleep and retry while fuel remains, otherwise propagate the failure. -/
def retryGo (waitF : Nat → Nat) (retryable : ε → Bool) (op : Nat → Except ε α) :
    Nat → Nat → RetryResult ε α
  | fuel, k =>
    match op k, fuel with
    | .ok a, _ => ⟨.ok a, k, []⟩
    | .error e, 0 => ⟨.error e, k, []⟩
    | .error e, fuel' + 1 =>
      if retryable e then
        let r := retryGo waitF retryable op fuel' (k + 1)
        ⟨r.result, r.attempts, waitF k :: r.sleeps⟩
      else ⟨.error e, k, []⟩

/-- A retry-wrapped call under `stop_after_attempt(maxAttempts)`: attempt
numbers start at 1 and at most `maxAttempts` attempts are made. -/
def retryRun (maxAttempts : Nat) (waitF : Nat → Nat) (retryable : ε → Bool)
    (op : Nat → Except ε α) : RetryResult ε α :=
  retryGo waitF retryable op (maxAttempts - 1) 1

/-! ### `ECBPDFDownloader.download_pdf` and its two strategies
(`pdf_downloader.py` lines 179-242)

The network is an oracle `fetch : Nat → Except AioExn Nat` giving, per
attempt, either a raised exception or an HTTP status code. -/

/-- Model of `download_pdf_with_aiohttp`: 3 attempts,
`wait_exponential(multiplier=1, min=2, max=8)`, retrying on
transport/server errors; a non-200 status raises
`aiohttp.ClientResponseError`, a `ClientError`, hence retryable. -/
def download_pdf_with_aiohttp (fetch : Nat → Except AioExn Nat) :
    RetryResult AioExn Unit :=
  retryRun 3 (waitExponential 1 2 8) aioRetryable (fun k =>
    match fetch k with
    | .ok status => if status = 200 then .ok () else .error .clientError
    | .error e => .error e)

/-- Model of `download_pdf_with_requests`: 2 attempts,
`wait_exponential(multiplier=1, min=2, max=6)`, retrying on any
`Exception`; a non-200 status raises `requests.HTTPError`. -/
def download_pdf_with_requests (fetch : Nat → Except AioExn Nat) :
    RetryResult AioExn Unit :=
  retryRun 2 (waitExponential 1 2 6) (fun _ => true) (fun k =>
    match fetch k with
    | .ok status => if status = 200 then .ok () else .error .otherExn
    | .error e => .error e)

/-- Outcome of `download_pdf`, recording whether the fallback strategy was
entered. -/
structure DownloadTrace where
  succeeded : Bool
  fallbackInvoked : Bool
deriving DecidableEq, Repr

/-- Model of `ECBPDFDownloader.download_pdf`: try the aiohttp strategy;
on any exception try the requests strategy; on any exception there as
well, return `False`. -/
def download_pdf (fetchA fetchB : Nat → Except AioExn Nat) : DownloadTrace :=
  match (download_pdf_with_aiohttp fetchA).result with
  | .ok _ => ⟨true, false⟩
  | .error _ =>
    match (download_pdf_with_requests fetchB).result with
    | .ok _ => ⟨true, true⟩
    | .error _ => ⟨false, true⟩

/-- The same control flow in the exception monad: both strategy calls sit
under a catch-all `except Exception` handler, so every branch returns a
Boolean normally. -/
def download_pdfE (fetchA fetchB : Nat → Except AioExn Nat) : Except AioExn Bool :=
  match (download_pdf_with_aiohttp fetchA).result with
  | .ok _ => .ok true
  | .error _ =>
    match (download_pdf_with_requests fetchB).result with
    | .ok _ => .ok true
    | .error _ => .ok false

/-- The retry wrapper of `ECBScraper.launch_browser` (`ecb_scrapper.py`
lines 129-138): 3 attempts, `wait_exponential(multiplier=1, min=2,
max=10)`, retrying on any `Exception`. -/
def launch_browser_retry (op : Nat → Except Unit Unit) : RetryResult Unit Unit :=
  retryRun 3 (waitExponential 1 2 10) (fun _ => true) op

/-- The retry wrapper of `ECBScraper.get_page_height` (`ecb_scrapper.py`
lines 164-172): 3 attempts, `wait_exponential(multiplier=1, min=1,
max=5)`, retrying on any `Exception`. -/
def get_page_height_retry (op : Nat → Except Unit Unit) : RetryResult Unit Unit :=
  retryRun 3 (waitExponential 1 1 5) (fun _ => true) op

/-- The sleep formula asserted by the specification: `min(maxDelay,
minDelay * multiplier^(attempt-1))`. -/
def specSleepFormula (minDelay maxDelay multiplier attempt : Nat) : Nat :=
  min maxDelay (minDelay * multiplier ^ (attempt - 1))

/-! ### `ECBPDFDownloader.process_publication` and
`process_publications_file` (`pdf_downloader.py` lines 351-416) -/

/-- Model of Python `s.endswith(suffix)`. -/
def endsWithPy (s suffix : String) : Bool := suffix.data.isSuffixOf s.data

/-- Retrieval oracle for one record: whether the chosen retrieval path
succeeds, the creator the render path would extract, and whether
processing the record raises an exception that the batch loop's
`except` arm must absorb. -/
structure RetrOracle where
  fetchOk : Bool
  creator : String
  raisesExn : Bool
deriving DecidableEq, Repr

/-- Result of processing one record: the success flag returned to the
batch loop and the metadata sidecar written, if any. -/
structure RecordResult where
  success : Bool
  sidecar : Option (String × Metadata)
deriving DecidableEq, Repr

/-- Model of `ECBPDFDownloader.process_publication` for a record whose
retrieval does not raise: names are resolved against the current
directory contents, the direct-fetch path is chosen for `.pdf` urls (no
creator), the render path otherwise (`html_to_pdf` returns an empty
creator on failure), and the metadata sidecar is generated and written
exactly under the success flag.  Returns the record result and the
directory contents after the writes. -/
def process_publication (fs : List String) (date title url : String)
    (oracle : RetrOracle) (now : String) : RecordResult × List String :=
  let base_filename := generate_filename date title 0
  let is_pdf := endsWithPy (toLowerPy url) ".pdf"
  let pdf_filename := check_duplicate_filename fs base_filename "pdf"
  let json_filename := check_duplicate_filename fs base_filename "json"
  let res := if is_pdf then (oracle.fetchOk, "")
             else (oracle.fetchOk, if oracle.fetchOk then oracle.creator else "")
  if res.1 then
    let md := generate_metadata date title url pdf_filename res.2 now
    (⟨true, some (json_filename, md)⟩, fs ++ [pdf_filename, json_filename])
  else (⟨false, none⟩, fs)

/-- Model of the loop of `ECBPDFDownloader.process_publications_file`:
per-record results in order, the `successful` and `failed` counters, and
the final directory contents.  A record whose processing raises is caught
by the `except` arm: it contributes no sidecar, increments `failed`, and
the loop continues. -/
def process_publications_file (now : String) :
    List ((String × String × String) × RetrOracle) → List String →
      List RecordResult × Nat × Nat × List String
  | [], fs => ([], 0, 0, fs)
  | (rec, oracle) :: rest, fs =>
    if oracle.raisesExn then
      let r := process_publications_file now rest fs
      (⟨false, none⟩ :: r.1, r.2.1, r.2.2.1 + 1, r.2.2.2)
    else
      let pr := process_publication fs rec.1 rec.2.1 rec.2.2 oracle now
      let r := process_publications_file now rest pr.2
      (pr.1 :: r.1,
       (if pr.1.success then r.2.1 + 1 else r.2.1),
       (if pr.1.success then r.2.2.1 else r.2.2.1 + 1),
       r.2.2.2)

/-! ### Characterisation of the leftmost-match scan -/

theorem scanFirst_eq_some {β : Type} (f : List Char → Option β) (hf : f [] = none)
    (s : List Char) (r : β) :
    scanFirst f s = some r ↔
      ∃ i, f (s.drop i) = some r ∧ ∀ j, j < i → f (s.drop j) = none := by
  induction s with
  | nil =>
    simp only [scanFirst, List.drop_nil]
    constructor
    · intro h; cases h
    · rintro ⟨i, hi, hlt⟩
      rw [hf] at hi
      cases hi
  | cons c rest ih =>
    cases hm : f (c :: rest) with
    | some r0 =>
      simp only [scanFirst, hm]
      constructor
      · intro h
        injection h with h
        subst h
        exact ⟨0, by simpa using hm, fun j hj => absurd hj (Nat.not_lt_zero j)⟩
      · rintro ⟨i, hi, hlt⟩
        cases i with
        | zero =>
          rw [List.drop_zero] at hi
          rw [hm] at hi
          injection hi with hi
          rw [hi]
        | succ i =>
          have h0 := hlt 0 (Nat.succ_pos i)
          rw [List.drop_zero, hm] at h0
          cases h0
    | none =>
      simp only [scanFirst, hm]
      rw [ih]
      constructor
      · rintro ⟨i, hi, hlt⟩
        refine ⟨i + 1, by simpa using hi, fun j hj => ?_⟩
        cases j with
        | zero => simpa using hm
        | succ j => simpa using hlt j (by omega)
      · rintro ⟨i, hi, hlt⟩
        cases i with
        | zero =>
          rw [List.drop_zero, hm] at hi
          cases hi
        | succ i =>
          exact ⟨i, by simpa using hi, fun j hj => by simpa using hlt (j + 1) (by omega)⟩

theorem scanFirst_eq_none {β : Type} (f : List Char → Option β) (hf : f [] = none)
    (s : List Char) :
    scanFirst f s = none ↔ ∀ i, f (s.drop i) = none := by
  induction s with
  | nil => simp [scanFirst, List.drop_nil, hf]
  | cons c rest ih =>
    cases hm : f (c :: rest) with
    | some r0 =>
      simp only [scanFirst, hm]
      constructor
      · intro h; cases h
      · intro h
        have h0 := h 0
        rw [List.drop_zero, hm] at h0
        cases h0
    | none =>
      simp only [scanFirst, hm]
      rw [ih]
      constructor
      · intro h i
        cases i with
        | zero => simpa using hm
        | succ i => simpa using h i
      · intro h i
        simpa using h (i + 1)

/-! ### Claim C3: `parse_date` behaviour -/

/-- Decidable check that the regex `(\d{1,2})\s+(\w+)\s+(\d{4})` matches at
this position with a month name present in the twelve-entry table. -/
def hasValidDMYAt (s : List Char) : Bool :=
  match matchDMYAt s with
  | some (_, m, _) => (monthLookup m.asString).isSome
  | none => false

/-- Decidable check that somewhere in the string a `D Month YYYY` form
occurs whose month name is in the table — the condition under which the
claim asserts a formatted date is returned. -/
def containsValidDMY : List Char → Bool
  | [] => false
  | c :: rest => hasValidDMYAt (c :: rest) || containsValidDMY rest

/-- Claim C3, counterexample: the string `"1 Foo 2000 15 March 2024"`
contains the `D Month YYYY` form `15 March 2024` whose month name is in the
table, yet `parse_date` returns `None`: the first regex match is
`1 Foo 2000`, its month name `Foo` is not in the table, and the function
falls through to the ISO search instead of trying later `D Month YYYY`
matches. -/
theorem parse_date_contains_valid_month_counterexample :
    containsValidDMY ("1 Foo 2000 15 March 2024").data = true ∧
      parse_date "1 Foo 2000 15 March 2024" = none := by
  constructor
  · decide
  · decide

/-- Claim C3 (amended): `parse_date` keys on the first regex matches.
Writing `t` for the stripped input: (1) when the first `D Month YYYY`
match of `t` has a month name in the table, the result is
`YYYY-MM-DD` with the matched year, the table month number and the
zero-padded matched day; (2) when the first `D Month YYYY` match has an
unknown month name, or no such match exists, the result is the first ISO
`YYYY-MM-DD` substring of `t` verbatim when one occurs, and `None`
otherwise; (3) the empty string yields `None`.  No input is an error. -/
theorem parse_date_first_match_spec (s : String) :
    (s ≠ "" → ∀ day m year,
      (∃ i, matchDMYAt ((pyStrip s.data).drop i) = some (day, m, year) ∧
        ∀ j, j < i → matchDMYAt ((pyStrip s.data).drop j) = none) →
      ((∃ mn, monthLookup m.asString = some mn ∧
          parse_date s = some (year.asString ++ "-" ++ mn ++ "-" ++ zfill2 day)) ∨
        (monthLookup m.asString = none ∧
          parse_date s = parseDateISOPart (pyStrip s.data)))) ∧
    (s ≠ "" → (∀ i, matchDMYAt ((pyStrip s.data).drop i) = none) →
      parse_date s = parseDateISOPart (pyStrip s.data)) ∧
    (∀ r, (∃ i, matchISOAt ((pyStrip s.data).drop i) = some r ∧
        ∀ j, j < i → matchISOAt ((pyStrip s.data).drop j) = none) →
      parseDateISOPart (pyStrip s.data) = some r.asString) ∧
    ((∀ i, matchISOAt ((pyStrip s.data).drop i) = none) →
      parseDateISOPart (pyStrip s.data) = none) ∧
    (s = "" → parse_date s = none) := by
  refine ⟨?_, ?_, ?_, ?_, ?_⟩
  · intro hne day m year hfirst
    have hs : searchDMY (pyStrip s.data) = some (day, m, year) :=
      (scanFirst_eq_some matchDMYAt rfl _ _).mpr hfirst
    cases hmn : monthLookup m.asString with
    | some mn =>
      left
      refine ⟨mn, rfl, ?_⟩
      simp only [parse_date, if_neg hne, hs, hmn]
    | none =>
      right
      refine ⟨rfl, ?_⟩
      simp only [parse_date, if_neg hne, hs, hmn]
  · intro hne hnone
    have hs : searchDMY (pyStrip s.data) = none :=
      (scanFirst_eq_none matchDMYAt rfl _).mpr hnone
    simp only [parse_date, if_neg hne, hs]
  · intro r hfirst
    have hs : searchISO (pyStrip s.data) = some r :=
      (scanFirst_eq_some matchISOAt rfl _ _).mpr hfirst
    rw [parseDateISOPart, hs]
    rfl
  · intro hnone
    have hs : searchISO (pyStrip s.data) = none :=
      (scanFirst_eq_none matchISOAt rfl _).mpr hnone
    rw [parseDateISOPart, hs]
    rfl
  · intro he
    simp only [parse_date, if_pos he]

/-- Extension of a bounded no-match check to all start positions: beyond
the end of the list every suffix is empty. -/
theorem forall_drop_none {β : Type} (f : List Char → Option β) (hf : f [] = none)
    (l : List Char) (h : ∀ i, i < l.length → f (l.drop i) = none) :
    ∀ i, f (l.drop i) = none := by
  intro i
  by_cases hi : i < l.length
  · exact h i hi
  · rw [List.drop_eq_nil_of_le (by omega)]
    exact hf

/-- Witness for the amended C3 theorem at the specification's own
examples, with every hypothesis discharged concretely. -/
theorem parse_date_first_match_spec_witness :
    parse_date "15 March 2024" = some "2024-03-15" ∧
      parse_date "2024-03-15" = some "2024-03-15" ∧
      parse_date "not a date" = none := by
  refine ⟨?_, ?_, ?_⟩
  · have h := (parse_date_first_match_spec "15 March 2024").1 (by decide)
      "15".data "March".data "2024".data
      ⟨0, by decide, fun j hj => absurd hj (Nat.not_lt_zero j)⟩
    rcases h with ⟨mn, hmn, hres⟩ | ⟨hmn, _⟩
    · have h03 : monthLookup ("March".data).asString = some "03" := by decide
      rw [h03] at hmn
      injection hmn with h
      subst h
      rw [hres]
      rfl
    · exact absurd hmn (by decide)
  · have hdmy : ∀ i, matchDMYAt ((pyStrip ("2024-03-15").data).drop i) = none :=
      forall_drop_none matchDMYAt rfl _ (by decide)
    have h2 := (parse_date_first_match_spec "2024-03-15").2.1 (by decide) hdmy
    have h3 := (parse_date_first_match_spec "2024-03-15").2.2.1 (("2024-03-15").data)
      ⟨0, by decide, fun j hj => absurd hj (Nat.not_lt_zero j)⟩
    rw [h2, h3]
    rfl
  · have hdmy : ∀ i, matchDMYAt ((pyStrip ("not a date").data).drop i) = none :=
      forall_drop_none matchDMYAt rfl _ (by decide)
    have hiso : ∀ i, matchISOAt ((pyStrip ("not a date").data).drop i) = none :=
      forall_drop_none matchISOAt rfl _ (by decide)
    have h2 := (parse_date_first_match_spec "not a date").2.1 (by decide) hdmy
    have h4 := (parse_date_first_match_spec "not a date").2.2.2.1 hiso
    rw [h2, h4]

/-! ### Claim C4: `determine_category` -/

theorem evalRules_eq_default_iff (t u dflt : String)
    (rules : List ((String → String → Bool) × String))
    (hne : ∀ r ∈ rules, r.2 ≠ dflt) :
    evalRules dflt t u rules = dflt ↔ ∀ r ∈ rules, r.1 t u = false := by
  induction rules with
  | nil => simp [evalRules]
  | cons r rs ih =>
    obtain ⟨p, c⟩ := r
    by_cases hp : p t u
    · simp only [evalRules, hp, if_true]
      constructor
      · intro h
        exact absurd h (hne (p, c) (List.mem_cons_self _ _))
      · intro h
        have h1 : p t u = false := h (p, c) (List.mem_cons_self _ _)
        rw [hp] at h1
        cases h1
    · simp only [evalRules]
      rw [if_neg hp]
      rw [ih (fun r hr => hne r (List.mem_cons_of_mem _ hr))]
      constructor
      · intro h r hr
        rcases List.mem_cons.mp hr with rfl | hr
        · simpa using hp
        · exact h r hr
      · intro h r hr
        exact h r (List.mem_cons_of_mem _ hr)

/-- Claim C4: `determine_category` is exactly the first-match-wins
evaluation of the fixed ordered eight-rule table over the lowered title
and url; a url containing the monetary-policy path segment is classified
`Monetary policy statement` regardless of the title; and the result is
`Report` precisely when none of the eight rules matches. -/
theorem determine_category_spec (title url : String) :
    determine_category title url =
        evalRules "Report" (toLowerPy title) (toLowerPy url) categoryRules ∧
      (containsSub (toLowerPy url) "/mopo/" = true →
        determine_category title url = "Monetary policy statement") ∧
      (determine_category title url = "Report" ↔
        ∀ r ∈ categoryRules, r.1 (toLowerPy title) (toLowerPy url) = false) := by
  refine ⟨rfl, ?_, ?_⟩
  · intro h
    simp only [determine_category, h, Bool.or_true, if_true]
  · rw [show determine_category title url =
        evalRules "Report" (toLowerPy title) (toLowerPy url) categoryRules from rfl]
    refine evalRules_eq_default_iff _ _ _ _ ?_
    intro r hr
    fin_cases hr <;> decide

/-- Witness for the C4 theorem: a url containing `/MOPO/` (upper case, so
the lowering matters) with a keyword-free title is classified as
`Monetary policy statement`, via the theorem's second conjunct. -/
theorem determine_category_spec_witness :
    determine_category "Weekly financial statement" "https://www.ecb.europa.eu/MOPO/doc.pdf"
      = "Monetary policy statement" :=
  (determine_category_spec "Weekly financial statement"
    "https://www.ecb.europa.eu/MOPO/doc.pdf").2.1 (by decide)

/-! ### Claim C5: `check_duplicate_filename` -/

theorem string_data_inj {s t : String} (h : s.data = t.data) : s = t := by
  cases s
  cases t
  exact congrArg String.mk h

theorem candidateName_injective (base ext : String) :
    Function.Injective (candidateName base ext) := by
  intro a b h
  have hdata := congrArg String.data h
  apply Nat.repr_injective
  apply string_data_inj
  cases hsplit : splitUnderscoreOnce base.data with
  | mk dp tpo =>
    cases tpo with
    | some tp =>
      simp only [candidateName, hsplit, String.data_append, List.append_assoc] at hdata
      have h1 := List.append_cancel_left hdata
      have h2 := List.append_cancel_left h1
      have h3 := List.append_cancel_left h2
      have h4 := List.append_cancel_left h3
      exact List.append_cancel_right h4
    | none =>
      simp only [candidateName, hsplit, String.data_append, List.append_assoc] at hdata
      have h1 := List.append_cancel_left hdata
      have h2 := List.append_cancel_left h1
      exact List.append_cancel_right h2

theorem exists_free_candidate (fs : List String) (base ext : String) :
    ∃ n, 1 ≤ n ∧ n < fs.length + 2 ∧ candidateName base ext n ∉ fs := by
  by_contra hc
  push_neg at hc
  have hsub : (List.range' 1 (fs.length + 1)).map (candidateName base ext) ⊆ fs := by
    intro x hx
    rw [List.mem_map] at hx
    obtain ⟨n, hn, rfl⟩ := hx
    rw [List.mem_range'_1] at hn
    exact hc n hn.1 (by omega)
  have hnodup : ((List.range' 1 (fs.length + 1)).map (candidateName base ext)).Nodup :=
    (List.nodup_range' 1 (fs.length + 1)).map (candidateName_injective base ext)
  have hlen := (hnodup.subperm hsub).length_le
  simp only [List.length_map, List.length_range'] at hlen
  omega

theorem cdfProbe_first_free (fs : List String) (cand : Nat → String) :
    ∀ (fuel c : Nat), (∃ n, c ≤ n ∧ n < c + fuel ∧ cand n ∉ fs) →
      ∃ m, cdfProbe fs cand fuel c = cand m ∧ c ≤ m ∧ cand m ∉ fs ∧
        ∀ j, c ≤ j → j < m → cand j ∈ fs := by
  intro fuel
  induction fuel with
  | zero =>
    rintro c ⟨n, h1, h2, _⟩
    omega
  | succ f ih =>
    rintro c ⟨n, h1, h2, h3⟩
    by_cases hc : cand c ∈ fs
    · have hne : n ≠ c := by
        intro he
        rw [he] at h3
        exact h3 hc
      obtain ⟨m, hm1, hm2, hm3, hm4⟩ := ih (c + 1) ⟨n, by omega, by omega, h3⟩
      refine ⟨m, ?_, by omega, hm3, ?_⟩
      · simp only [cdfProbe, hc, if_true]
        exact hm1
      · intro j hj1 hj2
        rcases Nat.eq_or_lt_of_le hj1 with rfl | hj
        · exact hc
        · exact hm4 j (by omega) hj2
    · refine ⟨c, ?_, Nat.le_refl c, hc, ?_⟩
      · simp only [cdfProbe, hc, if_false]
      · intro j hj1 hj2
        omega

/-- Claim C5: `check_duplicate_filename` returns `baseName.ext` when that
name is not among the existing files; otherwise it returns the probe name
`<date>_<strippedTitle>_At{n}.<ext>` for the least `n ≥ 1` whose probe
name is unused; in all cases the returned name is not among the existing
files. -/
theorem check_duplicate_filename_spec (fs : List String) (base ext : String) :
    ((base ++ "." ++ ext) ∉ fs →
        check_duplicate_filename fs base ext = base ++ "." ++ ext) ∧
      ((base ++ "." ++ ext) ∈ fs →
        ∃ n, 1 ≤ n ∧ check_duplicate_filename fs base ext = candidateName base ext n ∧
          candidateName base ext n ∉ fs ∧
          ∀ j, 1 ≤ j → j < n → candidateName base ext j ∈ fs) ∧
      check_duplicate_filename fs base ext ∉ fs := by
  by_cases h0 : (base ++ "." ++ ext) ∈ fs
  · have hfree := exists_free_candidate fs base ext
    obtain ⟨n, hn1, hn2, hn3⟩ := hfree
    obtain ⟨m, hm1, hm2, hm3, hm4⟩ :=
      cdfProbe_first_free fs (candidateName base ext) (fs.length + 1) 1
        ⟨n, hn1, by omega, hn3⟩
    have hres : check_duplicate_filename fs base ext =
        cdfProbe fs (candidateName base ext) (fs.length + 1) 1 := by
      simp only [check_duplicate_filename, h0, if_true]
    refine ⟨fun h => absurd h0 h, ?_, ?_⟩
    · intro _
      exact ⟨m, hm2, hres.trans hm1, hm3, hm4⟩
    · rw [hres, hm1]
      exact hm3
  · have hres : check_duplicate_filename fs base ext = base ++ "." ++ ext := by
      simp only [check_duplicate_filename, h0, if_false]
    refine ⟨fun _ => hres, fun h => absurd h h0, ?_⟩
    rw [hres]
    exact h0

/-- Witness for the C5 theorem at the specification's example: with
`2024-01-01_Title.pdf` and `2024-01-01_Title_At1.pdf` present, the same
base name resolves to `2024-01-01_Title_At2.pdf`, a name not on disk. -/
theorem check_duplicate_filename_spec_witness :
    check_duplicate_filename ["2024-01-01_Title.pdf", "2024-01-01_Title_At1.pdf"]
        "2024-01-01_Title" "pdf" = "2024-01-01_Title_At2.pdf" ∧
      check_duplicate_filename ["2024-01-01_Title.pdf", "2024-01-01_Title_At1.pdf"]
        "2024-01-01_Title" "pdf" ∉
        ["2024-01-01_Title.pdf", "2024-01-01_Title_At1.pdf"] :=
  ⟨by decide,
   (check_duplicate_filename_spec ["2024-01-01_Title.pdf", "2024-01-01_Title_At1.pdf"]
     "2024-01-01_Title" "pdf").2.2⟩

/-! ### Claim C1: the extraction cap -/

theorem extractLinksLoop_eq_take (maxP : Nat) (dt : String) :
    ∀ (as : List Anchor) (pubs : List Pub),
      extractLinksLoop maxP dt as pubs =
        pubs ++ (as.filterMap (linkPub dt)).take (maxP - pubs.length) := by
  intro as
  induction as with
  | nil => intro pubs; simp [extractLinksLoop]
  | cons a as ih =>
    intro pubs
    by_cases h : maxP ≤ pubs.length
    · simp [extractLinksLoop, h, Nat.sub_eq_zero_of_le h]
    · simp only [extractLinksLoop, if_neg h, List.filterMap_cons]
      cases hl : linkPub dt a with
      | none => exact ih pubs
      | some p =>
        show extractLinksLoop maxP dt as (pubs ++ [p]) =
          pubs ++ (p :: as.filterMap (linkPub dt)).take (maxP - pubs.length)
        rw [ih (pubs ++ [p])]
        have hm : maxP - pubs.length = (maxP - (pubs ++ [p]).length) + 1 := by
          simp only [List.length_append, List.length_singleton]
          omega
        rw [hm, List.take_succ_cons]
        simp

theorem extractDtsLoop_eq_take (maxP : Nat) :
    ∀ (pairs : List (String × List Anchor)) (pubs : List Pub),
      extractDtsLoop maxP pairs pubs =
        pubs ++ (pairs.foldr (fun p acc => p.2.filterMap (linkPub p.1) ++ acc) []).take
          (maxP - pubs.length) := by
  intro pairs
  induction pairs with
  | nil => intro pubs; simp [extractDtsLoop]
  | cons p rest ih =>
    intro pubs
    obtain ⟨dt, dd⟩ := p
    by_cases h : maxP ≤ pubs.length
    · simp [extractDtsLoop, h, Nat.sub_eq_zero_of_le h]
    · simp only [extractDtsLoop, if_neg h, List.foldr_cons]
      rw [extractLinksLoop_eq_take, ih]
      have harg : maxP -
          (pubs ++ (dd.filterMap (linkPub dt)).take (maxP - pubs.length)).length =
          (maxP - pubs.length) - (dd.filterMap (linkPub dt)).length := by
        simp only [List.length_append, List.length_take]
        omega
      rw [harg, List.take_append_eq_append_take, ← List.append_assoc]

theorem extractDlsLoop_eq_take (maxP : Nat) :
    ∀ (dls : List DlElem) (pubs : List Pub),
      extractDlsLoop maxP dls pubs =
        pubs ++ (dls.foldr (fun dl acc =>
          ((dl.dts.zip dl.dds).foldr (fun p acc2 =>
            p.2.filterMap (linkPub p.1) ++ acc2) []) ++ acc) []).take
          (maxP - pubs.length) := by
  intro dls
  induction dls with
  | nil => intro pubs; simp [extractDlsLoop]
  | cons dl rest ih =>
    intro pubs
    by_cases h : maxP ≤ pubs.length
    · simp [extractDlsLoop, h, Nat.sub_eq_zero_of_le h]
    · simp only [extractDlsLoop, if_neg h, List.foldr_cons]
      rw [extractDtsLoop_eq_take, ih]
      have harg : maxP -
          (pubs ++ ((dl.dts.zip dl.dds).foldr (fun (p : String × List Anchor) acc2 =>
            p.2.filterMap (linkPub p.1) ++ acc2) []).take (maxP - pubs.length)).length =
          (maxP - pubs.length) -
            ((dl.dts.zip dl.dds).foldr (fun (p : String × List Anchor) acc2 =>
              p.2.filterMap (linkPub p.1) ++ acc2) []).length := by
        simp only [List.length_append, List.length_take]
        omega
      rw [harg, List.take_append_eq_append_take, ← List.append_assoc]

/-- Claim C1: the extraction with its eager cap checks at every nesting
level returns exactly the first `maxP` candidate links in document order:
it always equals the document-order candidate list truncated to `maxP`,
its size never exceeds `maxP`, and when the candidates outnumber `maxP`
the result has exactly `maxP` elements. -/
theorem extract_publications_cap_spec (maxP : Nat) (html : HtmlModel) :
    extract_publications_from_html maxP html = (candidatePubs html).take maxP ∧
      (extract_publications_from_html maxP html).length ≤ maxP ∧
      (maxP < (candidatePubs html).length →
        (extract_publications_from_html maxP html).length = maxP) := by
  have heq : extract_publications_from_html maxP html = (candidatePubs html).take maxP := by
    cases html with
    | mk wrapper =>
      cases wrapper with
      | none => simp [extract_publications_from_html, candidatePubs]
      | some dls =>
        simp only [extract_publications_from_html, candidatePubs]
        rw [extractDlsLoop_eq_take]
        simp
  refine ⟨heq, ?_, ?_⟩
  · rw [heq, List.length_take]
    omega
  · intro h
    rw [heq, List.length_take]
    omega

/-- A concrete snapshot with three candidate links spread over two `dl`
elements, used to witness the cap theorem at `maxP = 2`. -/
def demoHtml : HtmlModel :=
  ⟨some [⟨["2 May 2024"], [[⟨"A", "/a", false⟩, ⟨"B", "/b", false⟩]]⟩,
         ⟨["3 May 2024"], [[⟨"C", "/c", false⟩]]⟩]⟩

/-- Witness for the C1 theorem: `demoHtml` has three candidate links, and
extraction capped at two returns exactly the first two in document
order. -/
theorem extract_publications_cap_spec_witness :
    2 < (candidatePubs demoHtml).length ∧
      (extract_publications_from_html 2 demoHtml).length = 2 ∧
      extract_publications_from_html 2 demoHtml = (candidatePubs demoHtml).take 2 :=
  ⟨by decide, (extract_publications_cap_spec 2 demoHtml).2.2 (by decide),
   (extract_publications_cap_spec 2 demoHtml).1⟩

/-! ### Claim C2: dedup and ranking -/

theorem lexLe_refl : ∀ l : List Char, lexLe l l = true
  | [] => rfl
  | a :: as => by
    show (if a < a then true else if a < a then false else lexLe as as) = true
    rw [if_neg (lt_irrefl a), if_neg (lt_irrefl a)]
    exact lexLe_refl as

theorem lexLe_total (a : List Char) :
    ∀ b : List Char, lexLe a b = true ∨ lexLe b a = true := by
  induction a with
  | nil => intro b; left; rfl
  | cons a1 as ih =>
    intro b
    cases b with
    | nil => right; rfl
    | cons b1 bs =>
      rcases lt_trichotomy a1 b1 with h | h | h
      · left
        show (if a1 < b1 then true else if b1 < a1 then false else lexLe as bs) = true
        rw [if_pos h]
      · subst h
        rcases ih bs with h1 | h1
        · left
          show (if a1 < a1 then true else if a1 < a1 then false else lexLe as bs) = true
          rw [if_neg (lt_irrefl a1), if_neg (lt_irrefl a1)]
          exact h1
        · right
          show (if a1 < a1 then true else if a1 < a1 then false else lexLe bs as) = true
          rw [if_neg (lt_irrefl a1), if_neg (lt_irrefl a1)]
          exact h1
      · right
        show (if b1 < a1 then true else if a1 < b1 then false else lexLe bs as) = true
        rw [if_pos h]

theorem lexLe_cons_unfold (a1 b1 : Char) (as bs : List Char) :
    lexLe (a1 :: as) (b1 :: bs) =
      (if a1 < b1 then true else if b1 < a1 then false else lexLe as bs) := rfl

theorem lexLe_trans (a : List Char) :
    ∀ b c : List Char, lexLe a b = true → lexLe b c = true → lexLe a c = true := by
  induction a with
  | nil => intro b c _ _; rfl
  | cons a1 as ih =>
    intro b c hab hbc
    cases b with
    | nil => rw [show lexLe (a1 :: as) [] = false from rfl] at hab; cases hab
    | cons b1 bs =>
      cases c with
      | nil => rw [show lexLe (b1 :: bs) [] = false from rfl] at hbc; cases hbc
      | cons c1 cs =>
        rw [lexLe_cons_unfold] at hab hbc ⊢
        by_cases h1 : a1 < b1
        · by_cases h2 : b1 < c1
          · rw [if_pos (lt_trans h1 h2)]
          · by_cases h3 : c1 < b1
            · rw [if_neg h2, if_pos h3] at hbc
              cases hbc
            · have he : b1 = c1 := le_antisymm (le_of_not_lt h3) (le_of_not_lt h2)
              subst he
              rw [if_pos h1]
        · by_cases h4 : b1 < a1
          · rw [if_neg h1, if_pos h4] at hab
            cases hab
          · have he : a1 = b1 := le_antisymm (le_of_not_lt h4) (le_of_not_lt h1)
            subst he
            rw [if_neg h1, if_neg h4] at hab
            by_cases h2 : a1 < c1
            · rw [if_pos h2]
            · by_cases h3 : c1 < a1
              · rw [if_neg h2, if_pos h3] at hbc
                cases hbc
              · rw [if_neg h2, if_neg h3] at hbc ⊢
                exact ih bs cs hab hbc

theorem strLe_total (a b : String) : strLe a b = true ∨ strLe b a = true :=
  lexLe_total a.data b.data

theorem strLe_trans {a b c : String} (hab : strLe a b = true) (hbc : strLe b c = true) :
    strLe a c = true :=
  lexLe_trans a.data b.data c.data hab hbc

theorem dedupPubs_sublist : ∀ (l : List Pub) (seen : List String),
    (dedupPubs l seen).Sublist l := by
  intro l
  induction l with
  | nil => intro seen; simp [dedupPubs]
  | cons p ps ih =>
    intro seen
    by_cases h : p.url ∈ seen
    · simp only [dedupPubs, if_pos h]
      exact (ih seen).cons p
    · simp only [dedupPubs, if_neg h]
      exact (ih (p.url :: seen)).cons₂ p

theorem dedupPubs_url_not_seen : ∀ (l : List Pub) (seen : List String),
    ∀ q ∈ dedupPubs l seen, q.url ∉ seen := by
  intro l
  induction l with
  | nil => intro seen q hq; cases hq
  | cons p ps ih =>
    intro seen q hq
    by_cases h : p.url ∈ seen
    · rw [dedupPubs, if_pos h] at hq
      exact ih seen q hq
    · rw [dedupPubs, if_neg h] at hq
      rcases List.mem_cons.mp hq with rfl | hq
      · exact h
      · intro hmem
        exact ih (p.url :: seen) q hq (List.mem_cons_of_mem _ hmem)

theorem dedupPubs_first_occurrence : ∀ (l : List Pub) (seen : List String),
    ∀ q ∈ dedupPubs l seen, (l.filter (fun p => p.url == q.url)).head? = some q := by
  intro l
  induction l with
  | nil => intro seen q hq; cases hq
  | cons p ps ih =>
    intro seen q hq
    by_cases h : p.url ∈ seen
    · rw [dedupPubs, if_pos h] at hq
      have hne : q.url ≠ p.url := by
        intro he
        exact dedupPubs_url_not_seen ps seen q hq (he ▸ h)
      rw [List.filter_cons]
      have hb : (p.url == q.url) = false := by
        simp only [beq_eq_false_iff_ne, ne_eq]
        exact fun he => hne he.symm
      rw [hb]
      simp only [Bool.false_eq_true, if_false]
      exact ih seen q hq
    · rw [dedupPubs, if_neg h] at hq
      rcases List.mem_cons.mp hq with rfl | hq
      · rw [List.filter_cons]
        simp
      · have hne : q.url ≠ p.url := by
          intro he
          exact dedupPubs_url_not_seen ps (p.url :: seen) q hq
            (he ▸ List.mem_cons_self _ _)
        rw [List.filter_cons]
        have hb : (p.url == q.url) = false := by
          simp only [beq_eq_false_iff_ne, ne_eq]
          exact fun he => hne he.symm
        rw [hb]
        simp only [Bool.false_eq_true, if_false]
        exact ih (p.url :: seen) q hq

theorem dedupPubs_nodup_urls : ∀ (l : List Pub) (seen : List String),
    ((dedupPubs l seen).map (fun p => p.url)).Nodup := by
  intro l
  induction l with
  | nil => intro seen; simp [dedupPubs]
  | cons p ps ih =>
    intro seen
    by_cases h : p.url ∈ seen
    · rw [dedupPubs, if_pos h]
      exact ih seen
    · rw [dedupPubs, if_neg h]
      simp only [List.map_cons, List.nodup_cons]
      refine ⟨?_, ih (p.url :: seen)⟩
      intro hmem
      rw [List.mem_map] at hmem
      obtain ⟨q, hq, hqu⟩ := hmem
      exact dedupPubs_url_not_seen ps (p.url :: seen) q hq
        (hqu ▸ List.mem_cons_self _ _)

theorem dedupPubs_complete : ∀ (l : List Pub) (seen : List String),
    ∀ p ∈ l, p.url ∈ seen ∨ ∃ q ∈ dedupPubs l seen, q.url = p.url := by
  intro l
  induction l with
  | nil => intro seen p hp; cases hp
  | cons r rs ih =>
    intro seen p hp
    by_cases h : r.url ∈ seen
    · rw [dedupPubs, if_pos h]
      rcases List.mem_cons.mp hp with rfl | hp
      · left; exact h
      · exact ih seen p hp
    · rw [dedupPubs, if_neg h]
      rcases List.mem_cons.mp hp with rfl | hp
      · right; exact ⟨p, List.mem_cons_self _ _, rfl⟩
      · rcases ih (r.url :: seen) p hp with hmem | ⟨q, hq, hqu⟩
        · rcases List.mem_cons.mp hmem with he | hmem
          · right; exact ⟨r, List.mem_cons_self _ _, he.symm⟩
          · left; exact hmem
        · right; exact ⟨q, List.mem_cons_of_mem _ hq, hqu⟩

theorem insertPubDesc_perm (p : Pub) :
    ∀ l : List Pub, List.Perm (insertPubDesc p l) (p :: l) := by
  intro l
  induction l with
  | nil => simp [insertPubDesc]
  | cons q qs ih =>
    by_cases h : strLe q.date p.date
    · simp [insertPubDesc, h]
    · simp only [insertPubDesc, if_neg h]
      exact (ih.cons q).trans (List.Perm.swap p q qs)

theorem sortPubsDesc_perm : ∀ l : List Pub, List.Perm (sortPubsDesc l) l := by
  intro l
  induction l with
  | nil => simp [sortPubsDesc]
  | cons p ps ih =>
    exact (insertPubDesc_perm p (sortPubsDesc ps)).trans (ih.cons p)

theorem insertPubDesc_pairwise (p : Pub) :
    ∀ l : List Pub, l.Pairwise (fun a b => strLe b.date a.date = true) →
      (insertPubDesc p l).Pairwise (fun a b => strLe b.date a.date = true) := by
  intro l
  induction l with
  | nil => intro _; simp [insertPubDesc]
  | cons q qs ih =>
    intro hl
    rw [List.pairwise_cons] at hl
    obtain ⟨hq, hqs⟩ := hl
    by_cases h : strLe q.date p.date
    · simp only [insertPubDesc, if_pos h]
      rw [List.pairwise_cons]
      refine ⟨?_, List.pairwise_cons.mpr ⟨hq, hqs⟩⟩
      intro b hb
      rcases List.mem_cons.mp hb with rfl | hb
      · exact h
      · exact strLe_trans (hq b hb) h
    · simp only [insertPubDesc, if_neg h]
      rw [List.pairwise_cons]
      refine ⟨?_, ih hqs⟩
      intro b hb
      have hperm := insertPubDesc_perm p qs
      rcases List.mem_cons.mp (hperm.mem_iff.mp hb) with rfl | hb'
      · rcases strLe_total b.date q.date with h1 | h1
        · exact h1
        · exact absurd h1 h
      · exact hq b hb'

theorem sortPubsDesc_pairwise : ∀ l : List Pub,
    (sortPubsDesc l).Pairwise (fun a b => strLe b.date a.date = true) := by
  intro l
  induction l with
  | nil => simp [sortPubsDesc]
  | cons p ps ih => exact insertPubDesc_pairwise p (sortPubsDesc ps) ih

theorem insertPubDesc_filter_date (p : Pub) (dt : String) :
    ∀ l : List Pub,
      (insertPubDesc p l).filter (fun x => x.date == dt) =
        (p :: l).filter (fun x => x.date == dt) := by
  intro l
  induction l with
  | nil => rfl
  | cons q qs ih =>
    by_cases h : strLe q.date p.date
    · simp [insertPubDesc, h]
    · have hqp : q.date ≠ p.date := by
        intro he
        apply h
        rw [he]
        exact lexLe_refl _
      simp only [insertPubDesc, if_neg h]
      by_cases hp : p.date = dt
      · have hq : q.date ≠ dt := fun he => hqp (he.trans hp.symm)
        simp [List.filter_cons, ih, hp, hq]
      · simp [List.filter_cons, ih, hp]

theorem sortPubsDesc_filter_date (dt : String) : ∀ l : List Pub,
    (sortPubsDesc l).filter (fun x => x.date == dt) =
      l.filter (fun x => x.date == dt) := by
  intro l
  induction l with
  | nil => rfl
  | cons p ps ih =>
    rw [sortPubsDesc, insertPubDesc_filter_date, List.filter_cons, List.filter_cons, ih]

/-- Claim C2: the dedup-and-rank step keeps exactly the first occurrence
of each url in extraction order (the deduplicated list is a subsequence of
the input, its urls are distinct, every input url is represented, and each
kept record is the first input record with its url) and then stable-sorts
by date descending: the ranked list is a permutation of the deduplicated
one, its dates are non-increasing, and for each date value the records
with that date appear in exactly their deduplicated (hence extraction)
order — no secondary key. -/
theorem dedupAndRank_spec (l : List Pub) :
    (dedupPubs l []).Sublist l ∧
      ((dedupPubs l []).map (fun p => p.url)).Nodup ∧
      (∀ p ∈ l, ∃ q ∈ dedupPubs l [], q.url = p.url) ∧
      (∀ q ∈ dedupPubs l [], (l.filter (fun p => p.url == q.url)).head? = some q) ∧
      List.Perm (dedupAndRank l) (dedupPubs l []) ∧
      (dedupAndRank l).Pairwise (fun a b => strLe b.date a.date = true) ∧
      (∀ dt, (dedupAndRank l).filter (fun x => x.date == dt) =
        (dedupPubs l []).filter (fun x => x.date == dt)) := by
  refine ⟨dedupPubs_sublist l [], dedupPubs_nodup_urls l [], ?_,
    dedupPubs_first_occurrence l [], sortPubsDesc_perm _, sortPubsDesc_pairwise _,
    fun dt => sortPubsDesc_filter_date dt _⟩
  intro p hp
  rcases dedupPubs_complete l [] p hp with hmem | h
  · cases hmem
  · exact h

/-- Witness for the C2 theorem at the specification's examples: urls
`[A, B, A, C]` dedup to `[A, B, C]` keeping first occurrences, and dates
`[2024-01-01, 2024-03-01, 2024-02-01]` rank newest first; the non-trivial
conjuncts are drawn from the theorem at a concrete list. -/
theorem dedupAndRank_spec_witness :
    dedupAndRank
        [⟨"2024-01-01", "t1", "A", ""⟩, ⟨"2024-03-01", "t2", "B", ""⟩,
         ⟨"2024-01-01", "t3", "A", ""⟩, ⟨"2024-02-01", "t4", "C", ""⟩] =
      [⟨"2024-03-01", "t2", "B", ""⟩, ⟨"2024-02-01", "t4", "C", ""⟩,
       ⟨"2024-01-01", "t1", "A", ""⟩] ∧
    (List.filter (fun p => p.url == "A")
        ([⟨"2024-01-01", "t1", "A", ""⟩, ⟨"2024-03-01", "t2", "B", ""⟩,
          ⟨"2024-01-01", "t3", "A", ""⟩, ⟨"2024-02-01", "t4", "C", ""⟩] :
          List Pub)).head? =
      some ⟨"2024-01-01", "t1", "A", ""⟩ :=
  ⟨by decide,
   (dedupAndRank_spec
      [⟨"2024-01-01", "t1", "A", ""⟩, ⟨"2024-03-01", "t2", "B", ""⟩,
       ⟨"2024-01-01", "t3", "A", ""⟩, ⟨"2024-02-01", "t4", "C", ""⟩]).2.2.2.1
     ⟨"2024-01-01", "t1", "A", ""⟩ (by decide)⟩

/-! ### Retry-wrapper lemmas shared by the download and backoff claims -/

theorem retryGo_ok {ε α : Type} {waitF : Nat → Nat} {retryable : ε → Bool}
    {op : Nat → Except ε α} {k : Nat} {a : α} (h : op k = .ok a) (fuel : Nat) :
    retryGo waitF retryable op fuel k = ⟨.ok a, k, []⟩ := by
  cases fuel <;> simp [retryGo, h]

theorem retryGo_error_zero {ε α : Type} {waitF : Nat → Nat} {retryable : ε → Bool}
    {op : Nat → Except ε α} {k : Nat} {e : ε} (h : op k = .error e) :
    retryGo waitF retryable op 0 k = ⟨.error e, k, []⟩ := by
  simp [retryGo, h]

theorem retryGo_error_succ {ε α : Type} {waitF : Nat → Nat} {retryable : ε → Bool}
    {op : Nat → Except ε α} {k : Nat} {e : ε} (h : op k = .error e) (f : Nat) :
    retryGo waitF retryable op (f + 1) k =
      if retryable e then
        ⟨(retryGo waitF retryable op f (k + 1)).result,
         (retryGo waitF retryable op f (k + 1)).attempts,
         waitF k :: (retryGo waitF retryable op f (k + 1)).sleeps⟩
      else ⟨.error e, k, []⟩ := by
  simp [retryGo, h]

theorem retryGo_attempts_ge {ε α : Type} (waitF : Nat → Nat) (retryable : ε → Bool)
    (op : Nat → Except ε α) :
    ∀ fuel k, k ≤ (retryGo waitF retryable op fuel k).attempts := by
  intro fuel
  induction fuel with
  | zero =>
    intro k
    cases hop : op k with
    | ok a => rw [retryGo_ok hop]
    | error e => rw [retryGo_error_zero hop]
  | succ f ih =>
    intro k
    cases hop : op k with
    | ok a => rw [retryGo_ok hop]
    | error e =>
      rw [retryGo_error_succ hop]
      by_cases hr : retryable e
      · rw [if_pos hr]
        exact le_trans (Nat.le_succ k) (ih (k + 1))
      · rw [if_neg hr]

theorem retryGo_attempts_le {ε α : Type} (waitF : Nat → Nat) (retryable : ε → Bool)
    (op : Nat → Except ε α) :
    ∀ fuel k, (retryGo waitF retryable op fuel k).attempts ≤ k + fuel := by
  intro fuel
  induction fuel with
  | zero =>
    intro k
    cases hop : op k with
    | ok a => rw [retryGo_ok hop]; dsimp only; omega
    | error e => rw [retryGo_error_zero hop]; dsimp only; omega
  | succ f ih =>
    intro k
    cases hop : op k with
    | ok a => rw [retryGo_ok hop]; dsimp only; omega
    | error e =>
      rw [retryGo_error_succ hop]
      by_cases hr : retryable e
      · rw [if_pos hr]
        have := ih (k + 1)
        dsimp only
        omega
      · rw [if_neg hr]
        dsimp only
        omega

theorem retryGo_error_all_retryable {ε α : Type} (waitF : Nat → Nat)
    (retryable : ε → Bool) (op : Nat → Except ε α)
    (hall : ∀ n e, op n = .error e → retryable e = true) :
    ∀ fuel k e, (retryGo waitF retryable op fuel k).result = .error e →
      (retryGo waitF retryable op fuel k).attempts = k + fuel := by
  intro fuel
  induction fuel with
  | zero =>
    intro k e he
    cases hop : op k with
    | ok a => rw [retryGo_ok hop] at he; cases he
    | error e0 => rw [retryGo_error_zero hop]; dsimp only; omega
  | succ f ih =>
    intro k e he
    cases hop : op k with
    | ok a => rw [retryGo_ok hop] at he; cases he
    | error e0 =>
      have hr := hall k e0 hop
      rw [retryGo_error_succ hop, if_pos hr] at he ⊢
      dsimp only at he ⊢
      have := ih (k + 1) e he
      omega

theorem retryGo_sleeps {ε α : Type} (waitF : Nat → Nat) (retryable : ε → Bool)
    (op : Nat → Except ε α) :
    ∀ fuel k, (retryGo waitF retryable op fuel k).sleeps =
      (List.range' k ((retryGo waitF retryable op fuel k).attempts - k)).map waitF := by
  intro fuel
  induction fuel with
  | zero =>
    intro k
    cases hop : op k with
    | ok a => rw [retryGo_ok hop]; simp
    | error e => rw [retryGo_error_zero hop]; simp
  | succ f ih =>
    intro k
    cases hop : op k with
    | ok a => rw [retryGo_ok hop]; simp
    | error e =>
      rw [retryGo_error_succ hop]
      by_cases hr : retryable e
      · rw [if_pos hr]
        dsimp only
        have hge := retryGo_attempts_ge waitF retryable op f (k + 1)
        have hm : (retryGo waitF retryable op f (k + 1)).attempts - k =
            ((retryGo waitF retryable op f (k + 1)).attempts - (k + 1)) + 1 := by
          omega
        rw [hm, List.range'_succ, List.map_cons]
        rw [ih (k + 1)]
      · rw [if_neg hr]
        simp

/-! ### Claim C6: `download_pdf` fallback orchestration -/

theorem download_pdf_with_aiohttp_attempts (fetchA : Nat → Except AioExn Nat)
    (hall : ∀ k e, fetchA k = .error e → aioRetryable e = true) (e : AioExn)
    (hA : (download_pdf_with_aiohttp fetchA).result = .error e) :
    (download_pdf_with_aiohttp fetchA).attempts = 3 := by
  unfold download_pdf_with_aiohttp retryRun at hA ⊢
  have hbody : ∀ n e', (fun k =>
      match fetchA k with
      | .ok status => if status = 200 then Except.ok () else Except.error AioExn.clientError
      | .error e => .error e) n = .error e' → aioRetryable e' = true := by
    intro n e' hn
    dsimp only at hn
    cases hfa : fetchA n with
    | ok status =>
      rw [hfa] at hn
      dsimp only at hn
      by_cases hs : status = 200
      · rw [if_pos hs] at hn; cases hn
      · rw [if_neg hs] at hn
        injection hn with hn
        rw [← hn]
        rfl
    | error e0 =>
      rw [hfa] at hn
      dsimp only at hn
      injection hn with hn
      rw [← hn]
      exact hall n e0 hfa
  have := retryGo_error_all_retryable (waitExponential 1 2 8) aioRetryable _ hbody
    (3 - 1) 1 e hA
  omega

theorem download_pdf_with_requests_attempts (fetchB : Nat → Except AioExn Nat) (e : AioExn)
    (hB : (download_pdf_with_requests fetchB).result = .error e) :
    (download_pdf_with_requests fetchB).attempts = 2 := by
  unfold download_pdf_with_requests retryRun at hB ⊢
  have := retryGo_error_all_retryable (waitExponential 1 2 6) (fun _ => true) _
    (fun _ _ _ => rfl) (2 - 1) 1 e hB
  omega

/-- Claim C6: `download_pdf` returns `True` exactly when the primary
strategy succeeds or, after its failure, the fallback strategy succeeds;
the fallback runs exactly when the primary retry-wrapped strategy has
failed; `False` is returned exactly when both strategies have failed; when
every primary failure is a retryable transport/server error, the fallback
is entered only after the primary's full three-attempt budget, and a
failing fallback always uses its full two-attempt budget; and the whole
call returns a Boolean normally — the catch-all handlers let no exception
escape. -/
theorem download_pdf_spec (fetchA fetchB : Nat → Except AioExn Nat) :
    ((download_pdf fetchA fetchB).succeeded = true ↔
      ((download_pdf_with_aiohttp fetchA).result = .ok () ∨
        ((∃ e, (download_pdf_with_aiohttp fetchA).result = .error e) ∧
          (download_pdf_with_requests fetchB).result = .ok ()))) ∧
    ((download_pdf fetchA fetchB).fallbackInvoked = true ↔
      ∃ e, (download_pdf_with_aiohttp fetchA).result = .error e) ∧
    ((download_pdf fetchA fetchB).succeeded = false ↔
      ((∃ e, (download_pdf_with_aiohttp fetchA).result = .error e) ∧
        (∃ e, (download_pdf_with_requests fetchB).result = .error e))) ∧
    ((∀ k e, fetchA k = .error e → aioRetryable e = true) →
      (download_pdf fetchA fetchB).fallbackInvoked = true →
      (download_pdf_with_aiohttp fetchA).attempts = 3) ∧
    ((∃ e, (download_pdf_with_requests fetchB).result = .error e) →
      (download_pdf_with_requests fetchB).attempts = 2) ∧
    download_pdfE fetchA fetchB = .ok (download_pdf fetchA fetchB).succeeded := by
  refine ⟨?_, ?_, ?_, ?_, ?_, ?_⟩
  · cases hA : (download_pdf_with_aiohttp fetchA).result with
    | ok u =>
      cases u
      simp [download_pdf, hA]
    | error ea =>
      cases hB : (download_pdf_with_requests fetchB).result with
      | ok u => cases u; simp [download_pdf, hA, hB]
      | error eb => simp [download_pdf, hA, hB]
  · cases hA : (download_pdf_with_aiohttp fetchA).result with
    | ok u => cases u; simp [download_pdf, hA]
    | error ea =>
      cases hB : (download_pdf_with_requests fetchB).result with
      | ok u => cases u; simp [download_pdf, hA, hB]
      | error eb => simp [download_pdf, hA, hB]
  · cases hA : (download_pdf_with_aiohttp fetchA).result with
    | ok u => cases u; simp [download_pdf, hA]
    | error ea =>
      cases hB : (download_pdf_with_requests fetchB).result with
      | ok u => cases u; simp [download_pdf, hA, hB]
      | error eb => simp [download_pdf, hA, hB]
  · intro hall hfb
    cases hA : (download_pdf_with_aiohttp fetchA).result with
    | ok u =>
      cases u
      rw [show (download_pdf fetchA fetchB).fallbackInvoked = false by
        simp [download_pdf, hA]] at hfb
      cases hfb
    | error ea => exact download_pdf_with_aiohttp_attempts fetchA hall ea hA
  · rintro ⟨e, hB⟩
    exact download_pdf_with_requests_attempts fetchB e hB
  · cases hA : (download_pdf_with_aiohttp fetchA).result with
    | ok u => cases u; simp [download_pdfE, download_pdf, hA]
    | error ea =>
      cases hB : (download_pdf_with_requests fetchB).result with
      | ok u => cases u; simp [download_pdfE, download_pdf, hA, hB]
      | error eb => simp [download_pdfE, download_pdf, hA, hB]

/-- Witness for the C6 theorem: a network whose primary transport always
raises a retryable connection error and whose fallback always answers
HTTP 500 yields `False` after three primary and two fallback attempts,
with no exception escaping. -/
theorem download_pdf_spec_witness :
    (download_pdf (fun _ => .error .clientError) (fun _ => .ok 500)).succeeded = false ∧
      (download_pdf_with_aiohttp (fun _ => .error .clientError)).attempts = 3 ∧
      (download_pdf_with_requests (fun _ => .ok 500)).attempts = 2 ∧
      download_pdfE (fun _ => .error .clientError) (fun _ => .ok 500) = .ok false := by
  have h := download_pdf_spec (fun _ => .error .clientError) (fun _ => .ok 500)
  refine ⟨by decide, ?_, ?_, ?_⟩
  · exact h.2.2.2.1 (fun _ e he => by injection he with he; rw [← he]; rfl) (by decide)
  · exact h.2.2.2.2.1 ⟨.otherExn, rfl⟩
  · have he := h.2.2.2.2.2
    rw [he, show (download_pdf (fun _ => .error .clientError)
      (fun _ => .ok 500)).succeeded = false from by decide]

/-! ### Claim C9: the inter-attempt sleep schedule -/

/-- Claim C9, counterexample: at the `get_page_height` call site
(`wait_exponential(multiplier=1, min=1, max=5)`, 3 attempts) a
persistently failing operation sleeps 1s then 2s — the second sleep is the
exponential `multiplier * 2^(k-1)` clamped to `[min, max]`, not the
claimed `min(maxDelay, minDelay * multiplier^(k-1))`, which gives 1s for
every retry when the multiplier is 1. -/
theorem retry_sleep_formula_counterexample :
    (get_page_height_retry (fun _ => .error ())).sleeps = [1, 2] ∧
      specSleepFormula 1 5 1 2 = 1 ∧
      (get_page_height_retry (fun _ => .error ())).sleeps.get? 1 ≠
        some (specSleepFormula 1 5 1 2) := by
  refine ⟨by decide, by decide, by decide⟩

/-- Claim C9 (amended): for every retry-wrapped operation the sleep before
retry `k` (the `k`-th element of the sleep trace) equals
`max(minDelay, min(multiplier * 2^(k-1), maxDelay))` for that call site's
configured tuple — tenacity's `wait_exponential` with its default base 2 —
and in particular the primary direct-fetch transport
(`multiplier=1, min=2, max=8`) sleeps exactly `minDelay = 2` seconds
before each of its retries. -/
theorem retry_sleep_formula_spec :
    (∀ (ε α : Type) (op : Nat → Except ε α) (retryable : ε → Bool)
      (maxA mult mn mx : Nat),
      (retryRun maxA (waitExponential mult mn mx) retryable op).sleeps =
        (List.range' 1
          ((retryRun maxA (waitExponential mult mn mx) retryable op).attempts - 1)).map
          (fun k => max mn (min (mult * 2 ^ (k - 1)) mx))) ∧
    (∀ (fetchA : Nat → Except AioExn Nat) (s : Nat),
      s ∈ (download_pdf_with_aiohttp fetchA).sleeps → s = 2) := by
  constructor
  · intro ε α op retryable maxA mult mn mx
    unfold retryRun
    exact retryGo_sleeps _ _ _ (maxA - 1) 1
  · intro fetchA s hs
    unfold download_pdf_with_aiohttp retryRun at hs
    rw [retryGo_sleeps] at hs
    have hle := retryGo_attempts_le (waitExponential 1 2 8) aioRetryable
      (fun k => match fetchA k with
        | .ok status => if status = 200 then Except.ok () else Except.error AioExn.clientError
        | .error e => .error e) (3 - 1) 1
    rw [List.mem_map] at hs
    obtain ⟨k, hk, rfl⟩ := hs
    rw [List.mem_range'_1] at hk
    have hk2 : k = 1 ∨ k = 2 := by omega
    rcases hk2 with rfl | rfl
    · rfl
    · rfl

/-- Witness for the amended C9 theorem: the primary transport against a
network that always raises `OSError` sleeps `[2, 2]`, and the theorem's
second conjunct applies to each element. -/
theorem retry_sleep_formula_spec_witness :
    (download_pdf_with_aiohttp (fun _ => .error .osError)).sleeps = [2, 2] ∧
      2 ∈ (download_pdf_with_aiohttp (fun _ => .error .osError)).sleeps ∧
      ∀ s ∈ (download_pdf_with_aiohttp (fun _ => .error .osError)).sleeps, s = 2 :=
  ⟨by decide, by decide, fun s hs => retry_sleep_formula_spec.2 _ s hs⟩

/-! ### Claim C7: metadata sidecar exactly on retrieval success -/

theorem process_publication_success (fs : List String) (d t u : String)
    (oracle : RetrOracle) (now : String) :
    (process_publication fs d t u oracle now).1.success = oracle.fetchOk ∧
      (process_publication fs d t u oracle now).1.sidecar.isSome = oracle.fetchOk := by
  unfold process_publication
  by_cases hp : endsWithPy (toLowerPy u) ".pdf" = true <;>
    by_cases hf : oracle.fetchOk = true <;>
      simp [hp, hf]

/-- Claim C7: for every batch, a metadata sidecar is produced for a record
exactly when its retrieval succeeded; a record whose retrieval fails (or
raises) is skipped with no sidecar, the batch continues with the next
record (every record is processed), and successes and failures are counted
so that they sum to the number of records, with the success counter equal
to the number of records whose retrieval succeeded. -/
theorem process_publications_file_spec (now : String) :
    ∀ (items : List ((String × String × String) × RetrOracle)) (fs0 : List String),
      (process_publications_file now items fs0).1.length = items.length ∧
      (process_publications_file now items fs0).2.1 +
        (process_publications_file now items fs0).2.2.1 = items.length ∧
      (∀ pr ∈ (process_publications_file now items fs0).1,
        pr.sidecar.isSome = true ↔ pr.success = true) ∧
      (∀ pair ∈ items.zip (process_publications_file now items fs0).1,
        pair.2.success = true ↔
          (pair.1.2.raisesExn = false ∧ pair.1.2.fetchOk = true)) ∧
      (process_publications_file now items fs0).2.1 =
        ((process_publications_file now items fs0).1.filter
          (fun pr => pr.success)).length := by
  intro items
  induction items with
  | nil =>
    intro fs0
    refine ⟨rfl, rfl, ?_, ?_, rfl⟩
    · intro pr hpr; cases hpr
    · intro pair hpair; cases hpair
  | cons item rest ih =>
    intro fs0
    obtain ⟨rec, oracle⟩ := item
    by_cases hr : oracle.raisesExn = true
    · rw [show process_publications_file now ((rec, oracle) :: rest) fs0 =
          (⟨false, none⟩ :: (process_publications_file now rest fs0).1,
           (process_publications_file now rest fs0).2.1,
           (process_publications_file now rest fs0).2.2.1 + 1,
           (process_publications_file now rest fs0).2.2.2) from by
        simp [process_publications_file, hr]]
      obtain ⟨h1, h2, h3, h4, h5⟩ := ih fs0
      refine ⟨?_, ?_, ?_, ?_, ?_⟩
      · dsimp only; rw [List.length_cons, h1, List.length_cons]
      · dsimp only; rw [List.length_cons]; omega
      · intro pr hpr
        dsimp only at hpr
        rcases List.mem_cons.mp hpr with rfl | hpr
        · simp
        · exact h3 pr hpr
      · intro pair hpair
        dsimp only at hpair
        rw [List.zip_cons_cons] at hpair
        rcases List.mem_cons.mp hpair with rfl | hpair
        · simp [hr]
        · exact h4 pair hpair
      · dsimp only
        rw [List.filter_cons]
        simp only [decide_eq_true_eq, Bool.false_eq_true, if_false]
        exact h5
    · rw [show process_publications_file now ((rec, oracle) :: rest) fs0 =
          ((process_publication fs0 rec.1 rec.2.1 rec.2.2 oracle now).1 ::
            (process_publications_file now rest
              (process_publication fs0 rec.1 rec.2.1 rec.2.2 oracle now).2).1,
           (if (process_publication fs0 rec.1 rec.2.1 rec.2.2 oracle now).1.success then
             (process_publications_file now rest
               (process_publication fs0 rec.1 rec.2.1 rec.2.2 oracle now).2).2.1 + 1
            else
             (process_publications_file now rest
               (process_publication fs0 rec.1 rec.2.1 rec.2.2 oracle now).2).2.1),
           (if (process_publication fs0 rec.1 rec.2.1 rec.2.2 oracle now).1.success then
             (process_publications_file now rest
               (process_publication fs0 rec.1 rec.2.1 rec.2.2 oracle now).2).2.2.1
            else
             (process_publications_file now rest
               (process_publication fs0 rec.1 rec.2.1 rec.2.2 oracle now).2).2.2.1 + 1),
           (process_publications_file now rest
             (process_publication fs0 rec.1 rec.2.1 rec.2.2 oracle now).2).2.2.2) from by
        simp [process_publications_file, hr]]
      obtain ⟨h1, h2, h3, h4, h5⟩ :=
        ih (process_publication fs0 rec.1 rec.2.1 rec.2.2 oracle now).2
      have hps := process_publication_success fs0 rec.1 rec.2.1 rec.2.2 oracle now
      refine ⟨?_, ?_, ?_, ?_, ?_⟩
      · dsimp only; rw [List.length_cons, h1, List.length_cons]
      · dsimp only
        rw [List.length_cons]
        by_cases hs : (process_publication fs0 rec.1 rec.2.1 rec.2.2 oracle now).1.success =
            true
        · rw [if_pos hs, if_pos hs]; omega
        · rw [if_neg hs, if_neg hs]; omega
      · intro pr hpr
        dsimp only at hpr
        rcases List.mem_cons.mp hpr with rfl | hpr
        · rw [hps.1, hps.2]
        · exact h3 pr hpr
      · intro pair hpair
        dsimp only at hpair
        rw [List.zip_cons_cons] at hpair
        rcases List.mem_cons.mp hpair with rfl | hpair
        · dsimp only
          rw [hps.1]
          have hro : oracle.raisesExn = false := by
            cases hb : oracle.raisesExn
            · rfl
            · exact absurd hb hr
          simp [hro]
        · exact h4 pair hpair
      · dsimp only
        rw [List.filter_cons]
        by_cases hs : (process_publication fs0 rec.1 rec.2.1 rec.2.2 oracle now).1.success =
            true
        · rw [if_pos hs]
          simp only [hs, decide_eq_true_eq, if_true]
          rw [List.length_cons, h5]
        · rw [if_neg hs]
          have hsf : (process_publication fs0 rec.1 rec.2.1 rec.2.2 oracle now).1.success =
              false := by
            cases hb : (process_publication fs0 rec.1 rec.2.1 rec.2.2 oracle now).1.success
            · rfl
            · exact absurd hb hs
          simp only [hsf, decide_eq_true_eq, Bool.false_eq_true, if_false]
          exact h5

/-- Witness for the C7 theorem: a two-record batch whose first retrieval
succeeds and whose second fails produces one sidecar (for the first
record only), counts one success and one failure, and processes both
records. -/
theorem process_publications_file_spec_witness :
    ((process_publications_file "now"
        [(("2024-01-01", "T", "https://x/a.pdf"), ⟨true, "", false⟩),
         (("2024-01-02", "U", "https://x/b.pdf"), ⟨false, "", false⟩)] []).1.map
      (fun pr => pr.sidecar.isSome) = [true, false]) ∧
      (process_publications_file "now"
        [(("2024-01-01", "T", "https://x/a.pdf"), ⟨true, "", false⟩),
         (("2024-01-02", "U", "https://x/b.pdf"), ⟨false, "", false⟩)] []).2.1 = 1 ∧
      (process_publications_file "now"
        [(("2024-01-01", "T", "https://x/a.pdf"), ⟨true, "", false⟩),
         (("2024-01-02", "U", "https://x/b.pdf"), ⟨false, "", false⟩)] []).2.2.1 = 1 ∧
      (process_publications_file "now"
          [(("2024-01-01", "T", "https://x/a.pdf"), ⟨true, "", false⟩),
           (("2024-01-02", "U", "https://x/b.pdf"), ⟨false, "", false⟩)] []).2.1 +
        (process_publications_file "now"
          [(("2024-01-01", "T", "https://x/a.pdf"), ⟨true, "", false⟩),
           (("2024-01-02", "U", "https://x/b.pdf"), ⟨false, "", false⟩)] []).2.2.1 = 2 :=
  ⟨by decide, by decide, by decide,
   (process_publications_file_spec "now"
     [(("2024-01-01", "T", "https://x/a.pdf"), ⟨true, "", false⟩),
      (("2024-01-02", "U", "https://x/b.pdf"), ⟨false, "", false⟩)] []).2.1⟩

/-! ### Claim C8: which lines the reader accepts -/

theorem splitPipeMax_ne_nil : ∀ (ms : Nat) (l : List Char), splitPipeMax ms l ≠ []
  | _, [] => by simp [splitPipeMax]
  | _, [c] => by simp [splitPipeMax]
  | _, [c1, c2] => by simp [splitPipeMax]
  | ms, c1 :: c2 :: c3 :: rest => by
    simp only [splitPipeMax]
    by_cases h : ms ≠ 0 ∧ c1 = ' ' ∧ c2 = '|' ∧ c3 = ' '
    · rw [if_pos h]
      simp
    · rw [if_neg h]
      cases hs : splitPipeMax ms (c2 :: c3 :: rest) with
      | nil => exact absurd hs (splitPipeMax_ne_nil ms (c2 :: c3 :: rest))
      | cons f fs => simp [consHead]

theorem consHead_length (c : Char) :
    ∀ ls : List (List Char), ls ≠ [] → (consHead c ls).length = ls.length := by
  intro ls h
  cases ls with
  | nil => contradiction
  | cons f fs => simp [consHead]

theorem splitPipeMax_length :
    ∀ (ms : Nat) (l : List Char), (splitPipeMax ms l).length = min ms (countSeps l) + 1
  | ms, [] => by simp [splitPipeMax, show countSeps [] = 0 from rfl]
  | ms, [c] => by simp [splitPipeMax, show countSeps [c] = 0 from rfl]
  | ms, [c1, c2] => by simp [splitPipeMax, show countSeps [c1, c2] = 0 from rfl]
  | ms, c1 :: c2 :: c3 :: rest => by
    by_cases h : ms ≠ 0 ∧ c1 = ' ' ∧ c2 = '|' ∧ c3 = ' '
    · obtain ⟨hms, h1, h2, h3⟩ := h
      subst h1; subst h2; subst h3
      rw [show splitPipeMax ms (' ' :: '|' :: ' ' :: rest) =
          [] :: splitPipeMax (ms - 1) rest from by simp [splitPipeMax, hms]]
      rw [show countSeps (' ' :: '|' :: ' ' :: rest) = countSeps rest + 1 from by
        simp [countSeps]]
      rw [List.length_cons, splitPipeMax_length (ms - 1) rest]
      omega
    · rw [show splitPipeMax ms (c1 :: c2 :: c3 :: rest) =
          consHead c1 (splitPipeMax ms (c2 :: c3 :: rest)) from by simp [splitPipeMax, h]]
      rw [consHead_length c1 _ (splitPipeMax_ne_nil ms (c2 :: c3 :: rest))]
      rw [splitPipeMax_length ms (c2 :: c3 :: rest)]
      by_cases hms : ms = 0
      · subst hms
        simp
      · have hchars : ¬(c1 = ' ' ∧ c2 = '|' ∧ c3 = ' ') := fun hc => h ⟨hms, hc⟩
        rw [show countSeps (c1 :: c2 :: c3 :: rest) = countSeps (c2 :: c3 :: rest) from by
          simp [countSeps, hchars]]

theorem joinSeps_consHead (c : Char) :
    ∀ ls : List (List Char), ls ≠ [] → joinSeps (consHead c ls) = c :: joinSeps ls := by
  intro ls h
  cases ls with
  | nil => contradiction
  | cons f fs =>
    cases fs with
    | nil => rfl
    | cons f2 fs2 => rfl

theorem joinSeps_splitPipeMax : ∀ (ms : Nat) (l : List Char),
    joinSeps (splitPipeMax ms l) = l
  | _, [] => rfl
  | _, [c] => rfl
  | _, [c1, c2] => rfl
  | ms, c1 :: c2 :: c3 :: rest => by
    by_cases h : ms ≠ 0 ∧ c1 = ' ' ∧ c2 = '|' ∧ c3 = ' '
    · obtain ⟨hms, h1, h2, h3⟩ := h
      subst h1; subst h2; subst h3
      rw [show splitPipeMax ms (' ' :: '|' :: ' ' :: rest) =
          [] :: splitPipeMax (ms - 1) rest from by simp [splitPipeMax, hms]]
      cases hs : splitPipeMax (ms - 1) rest with
      | nil => exact absurd hs (splitPipeMax_ne_nil _ _)
      | cons f fs =>
        have hj := joinSeps_splitPipeMax (ms - 1) rest
        rw [hs] at hj
        rw [show joinSeps ([] :: f :: fs) = ' ' :: '|' :: ' ' :: joinSeps (f :: fs) from rfl]
        rw [hj]
    · rw [show splitPipeMax ms (c1 :: c2 :: c3 :: rest) =
          consHead c1 (splitPipeMax ms (c2 :: c3 :: rest)) from by simp [splitPipeMax, h]]
      rw [joinSeps_consHead c1 _ (splitPipeMax_ne_nil ms (c2 :: c3 :: rest))]
      rw [joinSeps_splitPipeMax ms (c2 :: c3 :: rest)]

theorem countSeps_pos_infix :
    ∀ l : List Char, 1 ≤ countSeps l → isInfixCh [' ', '|', ' '] l = true
  | [] => by intro h; rw [show countSeps [] = 0 from rfl] at h; omega
  | [c] => by intro h; rw [show countSeps [c] = 0 from rfl] at h; omega
  | [c1, c2] => by intro h; rw [show countSeps [c1, c2] = 0 from rfl] at h; omega
  | c1 :: c2 :: c3 :: rest => by
    intro h
    by_cases hc : c1 = ' ' ∧ c2 = '|' ∧ c3 = ' '
    · obtain ⟨h1, h2, h3⟩ := hc
      subst h1; subst h2; subst h3
      rw [show isInfixCh [' ', '|', ' '] (' ' :: '|' :: ' ' :: rest) =
          ([' ', '|', ' '].isPrefixOf (' ' :: '|' :: ' ' :: rest) ||
            isInfixCh [' ', '|', ' '] ('|' :: ' ' :: rest)) from rfl]
      have hp : [' ', '|', ' '].isPrefixOf (' ' :: '|' :: ' ' :: rest) = true := by
        simp [List.isPrefixOf]
      rw [hp]
      simp
    · have hcount : countSeps (c1 :: c2 :: c3 :: rest) = countSeps (c2 :: c3 :: rest) := by
        simp [countSeps, hc]
      rw [hcount] at h
      have hrec := countSeps_pos_infix (c2 :: c3 :: rest) h
      rw [show isInfixCh [' ', '|', ' '] (c1 :: c2 :: c3 :: rest) =
          ([' ', '|', ' '].isPrefixOf (c1 :: c2 :: c3 :: rest) ||
            isInfixCh [' ', '|', ' '] (c2 :: c3 :: rest)) from rfl]
      rw [hrec]
      simp

/-- Claim C8, counterexample: the line `a | b | c | d` has four
`" | "`-separated fields, yet `read_publications_file` accepts it: the
split uses at most two separators, so the third field keeps the rest and
the record `("a", "b", "c | d")` is produced instead of the line being
skipped. -/
theorem read_publications_file_counterexample :
    read_publications_file "a | b | c | d" = [("a", "b", "c | d")] ∧
      read_publications_file "a | b | c | d" ≠ [] := by
  refine ⟨by decide, by decide⟩

/-- Claim C8 (amended): after stripping, a line is accepted as a
`(date, title, url)` record exactly when the greedy left-to-right scan
finds at least two `" | "` separators; the first two occurrences delimit
the date and title fields, and the remainder — which may itself contain
further `" | "` occurrences — becomes the url, so that the three fields
joined with the separator reproduce the stripped line.  Empty lines and
lines with fewer than two separators are skipped. -/
theorem parseLine_accept_iff (line : String) :
    ((∃ r, parseLine line.data = some r) ↔ 2 ≤ countSeps (pyStrip line.data)) ∧
      (∀ d t u, parseLine line.data = some (d, t, u) →
        d.data ++ (' ' :: '|' :: ' ' :: (t.data ++ (' ' :: '|' :: ' ' :: u.data))) =
          pyStrip line.data) := by
  constructor
  · constructor
    · rintro ⟨r, hr⟩
      unfold parseLine at hr
      by_cases hg : pyStrip line.data ≠ [] ∧
          isInfixCh (' ' :: '|' :: ' ' :: []) (pyStrip line.data) = true
      · rw [if_pos hg] at hr
        have hlen := splitPipeMax_length 2 (pyStrip line.data)
        rcases hspl : splitPipeMax 2 (pyStrip line.data) with
          _ | ⟨d0, _ | ⟨t0, _ | ⟨u0, _ | ⟨x, xs⟩⟩⟩⟩
        · rw [hspl] at hr; cases hr
        · rw [hspl] at hr; cases hr
        · rw [hspl] at hr; cases hr
        · rw [hspl] at hlen
          simp only [List.length_cons, List.length_nil] at hlen
          omega
        · rw [hspl] at hr; cases hr
      · rw [if_neg hg] at hr
        cases hr
    · intro h2
      have hne : pyStrip line.data ≠ [] := by
        intro he
        rw [he, show countSeps [] = 0 from rfl] at h2
        omega
      have hinf : isInfixCh (' ' :: '|' :: ' ' :: []) (pyStrip line.data) = true :=
        countSeps_pos_infix _ (by omega)
      have hlen3 : (splitPipeMax 2 (pyStrip line.data)).length = 3 := by
        rw [splitPipeMax_length]
        omega
      obtain ⟨d0, t0, u0, hs⟩ := List.length_eq_three.mp hlen3
      refine ⟨(d0.asString, t0.asString, u0.asString), ?_⟩
      unfold parseLine
      rw [if_pos ⟨hne, hinf⟩, hs]
  · intro d t u hp
    unfold parseLine at hp
    by_cases hg : pyStrip line.data ≠ [] ∧
        isInfixCh (' ' :: '|' :: ' ' :: []) (pyStrip line.data) = true
    · rw [if_pos hg] at hp
      rcases hspl : splitPipeMax 2 (pyStrip line.data) with
        _ | ⟨d0, _ | ⟨t0, _ | ⟨u0, _ | ⟨x, xs⟩⟩⟩⟩
      · rw [hspl] at hp; cases hp
      · rw [hspl] at hp; cases hp
      · rw [hspl] at hp; cases hp
      · rw [hspl] at hp
        have hj := joinSeps_splitPipeMax 2 (pyStrip line.data)
        rw [hspl] at hj
        injection hp with hp
        injection hp with hpd hp
        injection hp with hpt hpu
        rw [← hpd, ← hpt, ← hpu]
        rw [← hj]
        rfl
      · rw [hspl] at hp; cases hp
    · rw [if_neg hg] at hp
      cases hp

/-- Witness for the amended C8 theorem at a well-formed line, with the
acceptance hypothesis discharged concretely. -/
theorem parseLine_accept_iff_witness :
    parseLine ("2024-01-01 | T | http://x").data =
        some ("2024-01-01", "T", "http://x") ∧
      2 ≤ countSeps (pyStrip ("2024-01-01 | T | http://x").data) ∧
      ("2024-01-01" : String).data ++
          (' ' :: '|' :: ' ' :: (("T" : String).data ++
            (' ' :: '|' :: ' ' :: ("http://x" : String).data))) =
        pyStrip ("2024-01-01 | T | http://x").data :=
  ⟨by decide,
   (parseLine_accept_iff "2024-01-01 | T | http://x").1.mp
     ⟨("2024-01-01", "T", "http://x"), by decide⟩,
   (parseLine_accept_iff "2024-01-01 | T | http://x").2 "2024-01-01" "T" "http://x"
     (by decide)⟩

/-! ### Claim C10: flat-file round trip -/

/-- Shape test for an exact `YYYY-MM-DD` string (four digits, hyphen, two
digits, hyphen, two digits, nothing else). -/
def isIsoShape : List Char → Bool
  | [y1, y2, y3, y4, h1, m1, m2, h2, d1, d2] =>
    isDigitCh y1 && isDigitCh y2 && isDigitCh y3 && isDigitCh y4 && h1 == '-' &&
    isDigitCh m1 && isDigitCh m2 && h2 == '-' && isDigitCh d1 && isDigitCh d2
  | _ => false

/-- Conditions on a title under which the serialized line parses back:
no pipe character and no line-break characters.  Extraction guarantees
the pipe condition (every pipe is replaced by a dash). -/
def okTitle (t : String) : Bool :=
  t.data.all (fun c => c != '|' && c != '\n' && c != '\r')

/-- Conditions on a url under which the serialized line parses back:
non-empty, no line-break characters, and not ending in whitespace (the
reader strips each line, which would otherwise truncate the url). -/
def okUrl (u : String) : Bool :=
  match u.data.reverse with
  | [] => false
  | c :: _ => !isSpaceCh c && u.data.all (fun x => x != '\n' && x != '\r')

theorem digit_char_facts {c : Char} (h : isDigitCh c = true) :
    c ≠ '|' ∧ c ≠ '\n' ∧ isSpaceCh c = false := by
  refine ⟨?_, ?_, ?_⟩
  · rintro rfl; exact absurd h (by decide)
  · rintro rfl; exact absurd h (by decide)
  · cases hs : isSpaceCh c
    · rfl
    · exfalso
      simp only [isSpaceCh, Char.isWhitespace, Bool.or_eq_true, decide_eq_true_eq] at hs
      rcases hs with ((rfl | rfl) | rfl) | rfl <;> exact absurd h (by decide)

theorem iso_facts (l : List Char) (h : isIsoShape l = true) :
    (∃ y rest, l = y :: rest ∧ isDigitCh y = true) ∧
      (∀ c ∈ l, c ≠ '|' ∧ c ≠ '\n' ∧ isSpaceCh c = false) := by
  rcases l with _ | ⟨y1, _ | ⟨y2, _ | ⟨y3, _ | ⟨y4, _ | ⟨a1, _ | ⟨m1, _ | ⟨m2,
    _ | ⟨a2, _ | ⟨d1, _ | ⟨d2, _ | ⟨x, xs⟩⟩⟩⟩⟩⟩⟩⟩⟩⟩⟩
  · simp [isIsoShape] at h
  · simp [isIsoShape] at h
  · simp [isIsoShape] at h
  · simp [isIsoShape] at h
  · simp [isIsoShape] at h
  · simp [isIsoShape] at h
  · simp [isIsoShape] at h
  · simp [isIsoShape] at h
  · simp [isIsoShape] at h
  · simp [isIsoShape] at h
  · simp only [isIsoShape, Bool.and_eq_true, beq_iff_eq] at h
    obtain ⟨⟨⟨⟨⟨⟨⟨⟨⟨hy1, hy2⟩, hy3⟩, hy4⟩, ha1⟩, hm1⟩, hm2⟩, ha2⟩, hd1⟩, hd2⟩ := h
    refine ⟨⟨y1, _, rfl, hy1⟩, ?_⟩
    intro c hc
    simp only [List.mem_cons, List.not_mem_nil, or_false] at hc
    rcases hc with rfl | rfl | rfl | rfl | rfl | rfl | rfl | rfl | rfl | rfl
    · exact digit_char_facts hy1
    · exact digit_char_facts hy2
    · exact digit_char_facts hy3
    · exact digit_char_facts hy4
    · subst ha1; exact ⟨by decide, by decide, by decide⟩
    · exact digit_char_facts hm1
    · exact digit_char_facts hm2
    · subst ha2; exact ⟨by decide, by decide, by decide⟩
    · exact digit_char_facts hd1
    · exact digit_char_facts hd2
  · simp [isIsoShape] at h

theorem pyStrip_eq_of (l : List Char)
    (hh : ∀ c cs, l = c :: cs → isSpaceCh c = false)
    (hl : ∀ c cs, l.reverse = c :: cs → isSpaceCh c = false) : pyStrip l = l := by
  unfold pyStrip
  have h1 : l.dropWhile isSpaceCh = l := by
    cases hc : l with
    | nil => rfl
    | cons c cs =>
      rw [List.dropWhile_cons]
      rw [hh c cs hc]
      simp
  rw [h1]
  have h2 : l.reverse.dropWhile isSpaceCh = l.reverse := by
    cases hc : l.reverse with
    | nil => rfl
    | cons c cs =>
      rw [List.dropWhile_cons]
      rw [hl c cs hc]
      simp
  rw [h2, List.reverse_reverse]

theorem splitPipeMax_zero : ∀ l : List Char, splitPipeMax 0 l = [l]
  | [] => rfl
  | [c] => rfl
  | [c1, c2] => rfl
  | c1 :: c2 :: c3 :: rest => by
    rw [show splitPipeMax 0 (c1 :: c2 :: c3 :: rest) =
        consHead c1 (splitPipeMax 0 (c2 :: c3 :: rest)) from by simp [splitPipeMax]]
    rw [splitPipeMax_zero (c2 :: c3 :: rest)]
    rfl

theorem splitPipeMax_append_sep : ∀ (ms : Nat) (xs rest : List Char),
    (∀ c ∈ xs, c ≠ '|') →
    splitPipeMax (ms + 1) (xs ++ (' ' :: '|' :: ' ' :: rest)) = xs :: splitPipeMax ms rest
  | ms, [], rest => by
    intro _
    simp [splitPipeMax]
  | ms, [c], rest => by
    intro _
    simp only [List.cons_append, List.nil_append]
    rw [show splitPipeMax (ms + 1) (c :: ' ' :: '|' :: ' ' :: rest) =
        consHead c (splitPipeMax (ms + 1) (' ' :: '|' :: ' ' :: rest)) from by
      simp [splitPipeMax]]
    rw [show splitPipeMax (ms + 1) (' ' :: '|' :: ' ' :: rest) =
        [] :: splitPipeMax ms rest from by simp [splitPipeMax]]
    rfl
  | ms, c1 :: c2 :: xs2, rest => by
    intro h
    have hc2 : c2 ≠ '|' := h c2 (by simp)
    have hih := splitPipeMax_append_sep ms (c2 :: xs2) rest
      (fun c hc => h c (List.mem_cons_of_mem _ hc))
    cases xs2 with
    | nil =>
      simp only [List.cons_append, List.nil_append] at hih ⊢
      rw [show splitPipeMax (ms + 1) (c1 :: c2 :: ' ' :: '|' :: ' ' :: rest) =
          consHead c1 (splitPipeMax (ms + 1) (c2 :: ' ' :: '|' :: ' ' :: rest)) from by
        simp [splitPipeMax, hc2]]
      rw [hih]
      rfl
    | cons c3 xs3 =>
      simp only [List.cons_append] at hih ⊢
      rw [show splitPipeMax (ms + 1)
          (c1 :: c2 :: c3 :: (xs3 ++ ' ' :: '|' :: ' ' :: rest)) =
          consHead c1 (splitPipeMax (ms + 1)
            (c2 :: c3 :: (xs3 ++ ' ' :: '|' :: ' ' :: rest))) from by
        simp [splitPipeMax, hc2]]
      rw [hih]
      rfl

theorem isInfixCh_sep_append : ∀ xs ys : List Char,
    isInfixCh (' ' :: '|' :: ' ' :: []) (xs ++ (' ' :: '|' :: ' ' :: ys)) = true
  | [], ys => by
    simp only [List.nil_append]
    rw [show isInfixCh (' ' :: '|' :: ' ' :: []) (' ' :: '|' :: ' ' :: ys) =
        ((' ' :: '|' :: ' ' :: []).isPrefixOf (' ' :: '|' :: ' ' :: ys) ||
          isInfixCh (' ' :: '|' :: ' ' :: []) ('|' :: ' ' :: ys)) from rfl]
    have hp : (' ' :: '|' :: ' ' :: []).isPrefixOf (' ' :: '|' :: ' ' :: ys) = true := by
      simp [List.isPrefixOf]
    rw [hp]
    simp
  | c :: xs, ys => by
    simp only [List.cons_append]
    rw [show isInfixCh (' ' :: '|' :: ' ' :: []) (c :: (xs ++ (' ' :: '|' :: ' ' :: ys))) =
        ((' ' :: '|' :: ' ' :: []).isPrefixOf (c :: (xs ++ (' ' :: '|' :: ' ' :: ys))) ||
          isInfixCh (' ' :: '|' :: ' ' :: []) (xs ++ (' ' :: '|' :: ' ' :: ys))) from rfl]
    rw [isInfixCh_sep_append xs ys]
    simp

theorem data_asString_self (s : String) : s.data.asString = s := by
  cases s
  rfl

theorem line_data (d t u : String) :
    (d ++ " | " ++ t ++ " | " ++ u).data =
      d.data ++ (' ' :: '|' :: ' ' :: (t.data ++ (' ' :: '|' :: ' ' :: u.data))) := by
  have hsep : (" | " : String).data = ' ' :: '|' :: ' ' :: [] := rfl
  simp [String.data_append, hsep, List.append_assoc]

theorem okTitle_chars {t : String} (ht : okTitle t = true) :
    ∀ c ∈ t.data, c ≠ '|' ∧ c ≠ '\n' := by
  intro c hc
  unfold okTitle at ht
  rw [List.all_eq_true] at ht
  have := ht c hc
  simp only [Bool.and_eq_true, bne_iff_ne, ne_eq] at this
  exact ⟨this.1.1, this.1.2⟩

theorem okUrl_chars {u : String} (hu : okUrl u = true) :
    (∃ c cs, u.data.reverse = c :: cs ∧ isSpaceCh c = false) ∧
      ∀ c ∈ u.data, c ≠ '\n' := by
  unfold okUrl at hu
  cases hrev : u.data.reverse with
  | nil => rw [hrev] at hu; cases hu
  | cons c0 cs0 =>
    rw [hrev] at hu
    simp only [Bool.and_eq_true, Bool.not_eq_true'] at hu
    refine ⟨⟨c0, cs0, rfl, hu.1⟩, ?_⟩
    intro c hc
    have := (List.all_eq_true.mp hu.2) c hc
    simp only [Bool.and_eq_true, bne_iff_ne, ne_eq] at this
    exact this.1

theorem line_no_nl (d t u : String) (hd : isIsoShape d.data = true)
    (ht : okTitle t = true) (hu : okUrl u = true) :
    ∀ c ∈ (d ++ " | " ++ t ++ " | " ++ u).data, c ≠ '\n' := by
  intro c hc
  rw [line_data] at hc
  obtain ⟨_, hdchars⟩ := iso_facts d.data hd
  simp only [List.mem_append, List.mem_cons] at hc
  rcases hc with hc | rfl | rfl | rfl | (hc | rfl | rfl | rfl | hc)
  · exact (hdchars c hc).2.1
  · decide
  · decide
  · decide
  · exact (okTitle_chars ht c hc).2
  · decide
  · decide
  · decide
  · exact (okUrl_chars hu).2 c hc

theorem parseLine_roundtrip (d t u : String) (hd : isIsoShape d.data = true)
    (ht : okTitle t = true) (hu : okUrl u = true) :
    parseLine (d ++ " | " ++ t ++ " | " ++ u).data = some (d, t, u) := by
  obtain ⟨⟨y, yrest, hdy, hydig⟩, hdchars⟩ := iso_facts d.data hd
  obtain ⟨⟨c0, cs0, hrev, hc0⟩, _⟩ := okUrl_chars hu
  rw [line_data]
  have hstrip : pyStrip
      (d.data ++ (' ' :: '|' :: ' ' :: (t.data ++ (' ' :: '|' :: ' ' :: u.data)))) =
      d.data ++ (' ' :: '|' :: ' ' :: (t.data ++ (' ' :: '|' :: ' ' :: u.data))) := by
    apply pyStrip_eq_of
    · intro c cs hc
      rw [hdy] at hc
      simp only [List.cons_append] at hc
      injection hc with h1 _
      rw [← h1]
      exact (hdchars y (by rw [hdy]; exact List.mem_cons_self _ _)).2.2
    · intro c cs hc
      have hF : d.data ++ (' ' :: '|' :: ' ' :: (t.data ++ (' ' :: '|' :: ' ' :: u.data))) =
          (d.data ++ (' ' :: '|' :: ' ' :: (t.data ++ [' ', '|', ' ']))) ++ u.data := by
        simp [List.append_assoc]
      rw [hF, List.reverse_append, hrev] at hc
      simp only [List.cons_append] at hc
      injection hc with h1 _
      rw [← h1]
      exact hc0
  have hne : d.data ++ (' ' :: '|' :: ' ' :: (t.data ++ (' ' :: '|' :: ' ' :: u.data))) ≠
      [] := by
    rw [hdy]
    simp
  have hinf := isInfixCh_sep_append d.data (t.data ++ (' ' :: '|' :: ' ' :: u.data))
  have hdp : ∀ c ∈ d.data, c ≠ '|' := fun c hc => (hdchars c hc).1
  have htp : ∀ c ∈ t.data, c ≠ '|' := fun c hc => (okTitle_chars ht c hc).1
  have hsplit : splitPipeMax 2
      (d.data ++ (' ' :: '|' :: ' ' :: (t.data ++ (' ' :: '|' :: ' ' :: u.data)))) =
      [d.data, t.data, u.data] := by
    rw [show (2 : Nat) = 1 + 1 from rfl]
    rw [splitPipeMax_append_sep 1 d.data _ hdp]
    rw [show (1 : Nat) = 0 + 1 from rfl]
    rw [splitPipeMax_append_sep 0 t.data _ htp]
    rw [splitPipeMax_zero u.data]
  unfold parseLine
  rw [hstrip, if_pos ⟨hne, hinf⟩, hsplit]
  dsimp only
  rw [data_asString_self, data_asString_self, data_asString_self]

theorem splitLinesCh_no_nl : ∀ l : List Char, (∀ c ∈ l, c ≠ '\n') → splitLinesCh l = [l] := by
  intro l
  induction l with
  | nil => intro _; rfl
  | cons c rest ih =>
    intro h
    simp only [splitLinesCh]
    rw [if_neg (h c (List.mem_cons_self _ _))]
    rw [ih (fun c2 hc2 => h c2 (List.mem_cons_of_mem _ hc2))]
    rfl

theorem splitLinesCh_append : ∀ (xs ys : List Char), (∀ c ∈ xs, c ≠ '\n') →
    splitLinesCh (xs ++ '\n' :: ys) = xs :: splitLinesCh ys := by
  intro xs
  induction xs with
  | nil =>
    intro ys _
    simp [splitLinesCh]
  | cons c xs ih =>
    intro ys h
    have hstep : splitLinesCh ((c :: xs) ++ '\n' :: ys) =
        if c = '\n' then [] :: splitLinesCh (xs ++ '\n' :: ys)
        else consHead c (splitLinesCh (xs ++ '\n' :: ys)) := rfl
    rw [hstep, if_neg (h c (List.mem_cons_self _ _))]
    rw [ih ys (fun c2 hc2 => h c2 (List.mem_cons_of_mem _ hc2))]
    rfl

/-- Claim C10 (amended): serialising publications with `save_to_file` and
reading the result back with `read_publications_file` restores exactly
the `(date, title, url)` triples in order, provided each date is an exact
`YYYY-MM-DD` string, each title is free of pipe and line-break characters
(extraction guarantees this by replacing every pipe), and each url is
non-empty, free of line-break characters, and does not end in whitespace.
Urls may freely contain `" | "`, because the reader splits on at most two
separators. -/
theorem save_read_round_trip (pubs : List Pub)
    (h : ∀ p ∈ pubs, isIsoShape p.date.data = true ∧ okTitle p.title = true ∧
      okUrl p.url = true) :
    read_publications_file (save_to_file_content pubs) =
      pubs.map (fun p => (p.date, p.title, p.url)) := by
  induction pubs with
  | nil => rfl
  | cons p ps ih =>
    obtain ⟨hd, ht, hu⟩ := h p (List.mem_cons_self _ _)
    have hrest := fun q hq => h q (List.mem_cons_of_mem _ hq)
    cases ps with
    | nil =>
      unfold read_publications_file save_to_file_content
      simp only [List.map_cons, List.map_nil]
      rw [show joinNl [p.date ++ " | " ++ p.title ++ " | " ++ p.url] =
          p.date ++ " | " ++ p.title ++ " | " ++ p.url from rfl]
      rw [splitLinesCh_no_nl _ (line_no_nl p.date p.title p.url hd ht hu)]
      rw [List.filterMap_cons_some
        (parseLine_roundtrip p.date p.title p.url hd ht hu)]
      rfl
    | cons q qs =>
      have hthis := ih hrest
      unfold read_publications_file save_to_file_content at hthis ⊢
      simp only [List.map_cons] at hthis ⊢
      rw [show joinNl ((p.date ++ " | " ++ p.title ++ " | " ++ p.url) ::
          (q.date ++ " | " ++ q.title ++ " | " ++ q.url) ::
          List.map (fun p => p.date ++ " | " ++ p.title ++ " | " ++ p.url) qs) =
          (p.date ++ " | " ++ p.title ++ " | " ++ p.url) ++ "\n" ++
            joinNl ((q.date ++ " | " ++ q.title ++ " | " ++ q.url) ::
              List.map (fun p => p.date ++ " | " ++ p.title ++ " | " ++ p.url) qs)
          from rfl]
      rw [show ((p.date ++ " | " ++ p.title ++ " | " ++ p.url) ++ "\n" ++
          joinNl ((q.date ++ " | " ++ q.title ++ " | " ++ q.url) ::
            List.map (fun p => p.date ++ " | " ++ p.title ++ " | " ++ p.url) qs)).data =
          (p.date ++ " | " ++ p.title ++ " | " ++ p.url).data ++ '\n' ::
            (joinNl ((q.date ++ " | " ++ q.title ++ " | " ++ q.url) ::
              List.map (fun p => p.date ++ " | " ++ p.title ++ " | " ++ p.url) qs)).data
          from by simp [String.data_append]]
      rw [splitLinesCh_append _ _ (line_no_nl p.date p.title p.url hd ht hu)]
      rw [List.filterMap_cons_some
        (parseLine_roundtrip p.date p.title p.url hd ht hu)]
      rw [hthis]

/-- Claim C10, counterexample: the title `a |` contains no `" | "`
substring (the condition the claim states), yet the round trip breaks: the
serialized line `2024-01-01 | a | | u` re-parses with title `a` and url
`| u`, because the title's trailing space and pipe combine with the
separator into an earlier `" | "` occurrence. -/
theorem save_read_round_trip_counterexample :
    containsSub "a |" " | " = false ∧
      isIsoShape ("2024-01-01" : String).data = true ∧
      read_publications_file
          (save_to_file_content [⟨"2024-01-01", "a |", "u", ""⟩]) =
        [("2024-01-01", "a", "| u")] ∧
      [(("2024-01-01" : String), ("a" : String), ("| u" : String))] ≠
        [("2024-01-01", "a |", "u")] := by
  refine ⟨by decide, by decide, by decide, by decide⟩

/-- Witness for the amended C10 theorem: a two-record list whose second
url contains `" | "` round-trips exactly, with all side conditions
discharged concretely. -/
theorem save_read_round_trip_witness :
    read_publications_file (save_to_file_content
        [⟨"2024-01-01", "Report A", "https://x/a.pdf", ""⟩,
         ⟨"2023-12-31", "Report B", "https://x/b | extra", ""⟩]) =
      [("2024-01-01", "Report A", "https://x/a.pdf"),
       ("2023-12-31", "Report B", "https://x/b | extra")] :=
  save_read_round_trip
    [⟨"2024-01-01", "Report A", "https://x/a.pdf", ""⟩,
     ⟨"2023-12-31", "Report B", "https://x/b | extra", ""⟩]
    (by intro p hp; fin_cases hp <;> exact ⟨by decide, by decide, by decide⟩)
